import Mathlib

/-!
# A verification development for `Vector<T>` (src/vector.h)

The class `Vector<T>` is a growable array that manages raw storage by hand:
`new char[...]` for a block, placement `new` to start the lifetime of an
element in a slot, an explicit destructor call to end it, `delete[]` to
give the block back.

## Embedding

* A block of raw storage is a list of slots; a slot is `none` (raw memory,
  no object lives there) or `some x` (a live object with value `x`).
* A pointer `T*` is `Option (Block T)`: `none` is `nullptr`.  A `Vector`
  owns its block exclusively, so the block is stored inside the `data_`
  field; every block has an identity `id` handed out by the allocator.
* The element type `T` is a parameter.  Its copy constructor, destructor and
  `operator!=` are the fields of `ElemOps`.  The copy constructor may throw
  and both it and the destructor may touch state outside of the vector
  (`EvilInt::counter` in the tests); that state is `World.env`.
* Every allocation, release, completed construction and destruction is
  appended to `World.log`.
* A call ends in one of three ways (`Res`): normally, with a C++ exception in
  flight, or by undefined behaviour (a violated precondition, a failed
  `assert`, a read of a slot that holds no object, an access through
  `nullptr`).
* Sizes are read at two levels.  The member functions are first written with
  `size_t` as `Nat`, where neither `cap_ * 2` nor the byte count
  `n * sizeof(T)` of an allocation wraps.  `Reserve`, `PushBack`,
  `Vector(size, val)` and `Assign` are then written a second time with the
  two products taken modulo `2^64` (`Reserve64`, `PushBack64`, `create64`,
  `Assign64`, with `sizeof(T)` as a parameter); `Reserve64_eq`, `create64_eq`
  and `Assign64_eq` show that the two levels agree whenever the byte count
  fits in `size_t`.  The claims on a size that the caller passes in (C5, C10,
  C16) are stated at the machine level.  `new char[...]` is taken to succeed
  (the spec places allocation failure out of scope).
* A `for` loop over `[j, hi)` is `forRange`, a structural recursion on the
  number `hi - j` of iterations.
* A member function returns how the call ended, the members of the object
  after it, and the world.  A function that takes a second vector by
  reference (`Swap`, the assignments, the move constructor) returns both
  objects.  The branch `this == &other` of an assignment is a function of its
  own (`copyAssignSelf`, `moveAssignSelf`).
* A constructor whose body throws returns the members it leaves behind.  The
  filling constructors delegate to `Vector()`, so the language then runs the
  destructor on the object; `destructor_unwound` shows that it finds nothing
  to do.
-/

namespace VectorH

/-! ## Results, the world, the element type -/

/-- How a call ends. -/
inductive Res (E α : Type) where
  /-- normal return -/
  | ok (a : α) : Res E α
  /-- a C++ exception is in flight -/
  | throw (e : E) : Res E α
  /-- undefined behaviour or a failed `assert` -/
  | ub : Res E α
deriving DecidableEq, Repr

/-- Storage and lifetime events, in the order they happen. -/
inductive Event where
  /-- `new char[n * sizeof(T)]` returned block `id` -/
  | alloc (id n : Nat) : Event
  /-- `delete[]` of block `id` -/
  | free (id : Nat) : Event
  /-- a placement `new` completed in slot `i` of block `id` -/
  | construct (id i : Nat) : Event
  /-- the destructor ran on slot `i` of block `id` -/
  | destroy (id i : Nat) : Event
deriving DecidableEq, Repr

/-- Everything outside of the vector object that a call can change. -/
structure World (W : Type) where
  /-- state the element type's constructors and destructor can see and change -/
  env : W
  /-- the identity the next allocated block gets -/
  next : Nat
  /-- the events so far, oldest first -/
  log : List Event
deriving DecidableEq, Repr

/-- The operations of the element type `T` the class template uses. -/
structure ElemOps (T W E : Type) where
  /-- the copy constructor `T(const T&)`: the value of the new object, or an exception -/
  copy : T → W → Except E T × W
  /-- the destructor `~T()`, which does not throw -/
  dtor : T → W → W
  /-- the element comparison `operator!=` -/
  ne : T → T → Bool

/-- A block of raw storage for `slots.length` objects of type `T`. -/
structure Block (T : Type) where
  id : Nat
  slots : List (Option T)
deriving DecidableEq, Repr

/-- A `T*` that is `nullptr` or points to the first slot of a block. -/
abbrev Ptr (T : Type) := Option (Block T)

/-- The data members of `Vector<T>`. -/
structure Vector (T : Type) where
  size_ : Nat
  cap_ : Nat
  data_ : Ptr T
deriving DecidableEq, Repr

variable {T W E : Type}

/-! ## Storage primitives -/

/-- The expression `reinterpret_cast<T*>(new char[n * sizeof(T)])` for a byte
count that does not wrap; `allocate64` is the expression for every `n`. -/
def allocate (n : Nat) (w : World W) : Ptr T × World W :=
  (some { id := w.next, slots := List.replicate n none },
   { w with next := w.next + 1, log := w.log ++ [Event.alloc w.next n] })

/-- The statement `delete[] reinterpret_cast<char*>(p)`; a no-op on `nullptr`. -/
def release (p : Ptr T) (w : World W) : World W :=
  match p with
  | none => w
  | some b => { w with log := w.log ++ [Event.free b.id] }

/-- The lvalue `p[i]` read as a value: `none` when no object lives there. -/
def readSlot (p : Ptr T) (i : Nat) : Option T :=
  match p with
  | none => none
  | some b => (b.slots[i]?).join

/-- The statement `new (p + j) T(x)`. The slot must be raw memory inside the block. -/
def construct (ops : ElemOps T W E) (p : Ptr T) (j : Nat) (x : T) (w : World W) :
    Res E Unit × Ptr T × World W :=
  match p with
  | none => (Res.ub, p, w)
  | some b =>
    match b.slots[j]? with
    | some none =>
      match ops.copy x w.env with
      | (Except.ok y, env) =>
        (Res.ok (), some { b with slots := b.slots.set j (some y) },
         { w with env := env, log := w.log ++ [Event.construct b.id j] })
      | (Except.error e, env) => (Res.throw e, p, { w with env := env })
    | _ => (Res.ub, p, w)

/-- The statement `(p + i)->~T()`. An object must live in the slot. -/
def destroy (ops : ElemOps T W E) (p : Ptr T) (i : Nat) (w : World W) :
    Res E Unit × Ptr T × World W :=
  match p with
  | none => (Res.ub, p, w)
  | some b =>
    match b.slots[i]? with
    | some (some x) =>
      (Res.ok (), some { b with slots := b.slots.set i none },
       { w with env := ops.dtor x w.env, log := w.log ++ [Event.destroy b.id i] })
    | _ => (Res.ub, p, w)

/-! ## Loops -/

/-- Runs `body j` for `j, j+1, ...`, `k` times, stopping at the first call that
does not return normally; the counter is left at the index that stopped it. -/
def forLoop {σ : Type} (body : Nat → σ → Res E Unit × σ) :
    Nat → Nat → σ → Res E Unit × Nat × σ
  | 0, j, s => (Res.ok (), j, s)
  | k + 1, j, s =>
    match body j s with
    | (Res.ok (), s') => forLoop body k (j + 1) s'
    | (Res.throw e, s') => (Res.throw e, j, s')
    | (Res.ub, s') => (Res.ub, j, s')

/-- The loop `for (; j < hi; ++j) body(j);` started at `j = lo`. -/
def forRange {σ : Type} (body : Nat → σ → Res E Unit × σ) (lo hi : Nat) (s : σ) :
    Res E Unit × Nat × σ :=
  forLoop body (hi - lo) lo s

/-- The loop `for (; j < hi; ++j) new (dst + j) T(src[j]);`. -/
def copyRange (ops : ElemOps T W E) (src : Ptr T) (lo hi : Nat) (dst : Ptr T) (w : World W) :
    Res E Unit × Nat × Ptr T × World W :=
  forRange (fun j (s : Ptr T × World W) =>
    match readSlot src j with
    | none => (Res.ub, s)
    | some x => construct ops s.1 j x s.2) lo hi (dst, w)

/-- The loop `for (; j < hi; ++j) new (dst + j) T(val);`. -/
def fillRange (ops : ElemOps T W E) (val : T) (lo hi : Nat) (dst : Ptr T) (w : World W) :
    Res E Unit × Nat × Ptr T × World W :=
  forRange (fun j (s : Ptr T × World W) => construct ops s.1 j val s.2) lo hi (dst, w)

/-- The loop `for (size_t i = lo; i < hi; ++i) (p + i)->~T();`. -/
def destroyRange (ops : ElemOps T W E) (lo hi : Nat) (p : Ptr T) (w : World W) :
    Res E Unit × Nat × Ptr T × World W :=
  forRange (fun i (s : Ptr T × World W) => destroy ops s.1 i s.2) lo hi (p, w)

/-! ## Member functions -/

/-- The default constructor `Vector()`. -/
def Vector.empty : Vector T := { size_ := 0, cap_ := 0, data_ := none }

/-- The member `Size()`. -/
def Vector.Size (v : Vector T) : Nat := v.size_

/-- The member `Capacity()`. -/
def Vector.Capacity (v : Vector T) : Nat := v.cap_

/-- The member `Empty()`: `!size_`. -/
def Vector.Empty (v : Vector T) : Bool := v.size_ == 0

/-- The tail shared by the three reallocating paths: destroy the old elements,
release the old block, adopt `ndata` with capacity `ncap`. -/
def adopt (ops : ElemOps T W E) (v : Vector T) (ndata : Ptr T) (ncap : Nat) (w : World W) :
    Res E Unit × Vector T × World W :=
  match destroyRange ops 0 v.size_ v.data_ w with
  | (Res.ok (), _, old, w1) =>
    (Res.ok (), { v with data_ := ndata, cap_ := ncap }, release old w1)
  | (Res.throw e, _, old, w1) => (Res.throw e, { v with data_ := old }, w1)
  | (Res.ub, _, old, w1) => (Res.ub, { v with data_ := old }, w1)

/-- The `catch (...)` block shared by the three reallocating paths: destroy
`ndata[0 .. j)`, release `ndata`, rethrow `e`. The vector is not touched. -/
def rollback (ops : ElemOps T W E) (v : Vector T) (ndata : Ptr T) (j : Nat) (e : E)
    (w : World W) : Res E Unit × Vector T × World W :=
  match destroyRange ops 0 j ndata w with
  | (Res.ok (), _, nd, w1) => (Res.throw e, v, release nd w1)
  | (Res.throw e', _, _, w1) => (Res.throw e', v, w1)
  | (Res.ub, _, _, w1) => (Res.ub, v, w1)

/-- The member `Reserve(ncap)` (vector.h, lines 151-175) where neither
`cap_ * 2` nor the byte count wraps; `Reserve64` is the member for every
`ncap`. -/
def Vector.Reserve (ops : ElemOps T W E) (v : Vector T) (ncap : Nat) (w : World W) :
    Res E Unit × Vector T × World W :=
  if ncap ≤ v.cap_ then (Res.ok (), v, w)
  else
    let ncap := max ncap (v.cap_ * 2)
    match allocate ncap w with
    | (ndata, w0) =>
      match copyRange ops v.data_ 0 v.size_ ndata w0 with
      | (Res.throw e, j, ndata, w1) => rollback ops v ndata j e w1
      | (Res.ub, _, _, w1) => (Res.ub, v, w1)
      | (Res.ok (), _, ndata, w1) => adopt ops v ndata ncap w1

/-- The member `PushBack(x)` (vector.h, lines 188-216). -/
def Vector.PushBack (ops : ElemOps T W E) (v : Vector T) (x : T) (w : World W) :
    Res E Unit × Vector T × World W :=
  if v.size_ = v.cap_ then
    let ncap := if v.cap_ ≠ 0 then v.cap_ * 2 else 1
    match allocate ncap w with
    | (ndata, w0) =>
      match copyRange ops v.data_ 0 v.size_ ndata w0 with
      | (Res.throw e, j, ndata, w1) => rollback ops v ndata j e w1
      | (Res.ub, _, _, w1) => (Res.ub, v, w1)
      | (Res.ok (), j, ndata, w1) =>
        match construct ops ndata j x w1 with
        | (Res.throw e, ndata, w2) => rollback ops v ndata j e w2
        | (Res.ub, _, w2) => (Res.ub, v, w2)
        | (Res.ok (), ndata, w2) =>
          match adopt ops v ndata ncap w2 with
          | (Res.ok (), v', w3) => (Res.ok (), { v' with size_ := v'.size_ + 1 }, w3)
          | r => r
  else
    match construct ops v.data_ v.size_ x w with
    | (Res.ok (), d, w1) => (Res.ok (), { v with data_ := d, size_ := v.size_ + 1 }, w1)
    | (r, _, w1) => (r, v, w1)

/-- The member `PopBack()` (vector.h, lines 218-221). With `size_ == 0` the
pointer `data_ + size_ - 1` is outside of the block. -/
def Vector.PopBack (ops : ElemOps T W E) (v : Vector T) (w : World W) :
    Res E Unit × Vector T × World W :=
  if v.size_ = 0 then (Res.ub, v, w)
  else
    match destroy ops v.data_ (v.size_ - 1) w with
    | (Res.ok (), d, w1) => (Res.ok (), { v with data_ := d, size_ := v.size_ - 1 }, w1)
    | (r, _, w1) => (r, v, w1)

/-- The loop `while (size_ > nsize) PopBack();`. Every iteration lowers `size_`
by one, so `size_` iterations are enough fuel for the condition to end it. -/
def popWhile (ops : ElemOps T W E) (nsize : Nat) :
    Nat → Vector T → World W → Res E Unit × Vector T × World W
  | 0, v, w => (Res.ok (), v, w)
  | k + 1, v, w =>
    if v.size_ > nsize then
      match Vector.PopBack ops v w with
      | (Res.ok (), v', w') => popWhile ops nsize k v' w'
      | r => r
    else (Res.ok (), v, w)

/-- The member `Resize(nsize, val)` (vector.h, lines 223-268). -/
def Vector.Resize (ops : ElemOps T W E) (v : Vector T) (nsize : Nat) (val : T) (w : World W) :
    Res E Unit × Vector T × World W :=
  match popWhile ops nsize v.size_ v w with
  | (Res.ok (), v, w) =>
    if v.size_ = nsize then (Res.ok (), v, w)
    else if nsize ≤ v.cap_ then
      match fillRange ops val v.size_ nsize v.data_ w with
      | (Res.ok (), _, d, w1) => (Res.ok (), { v with data_ := d, size_ := nsize }, w1)
      | (Res.throw e, j, d, w1) =>
        match destroyRange ops v.size_ j d w1 with
        | (Res.ok (), _, d', w2) => (Res.throw e, { v with data_ := d' }, w2)
        | (r, _, d', w2) => (r, { v with data_ := d' }, w2)
      | (Res.ub, _, d, w1) => (Res.ub, { v with data_ := d }, w1)
    else
      let ncap := max nsize (v.cap_ * 2)
      match allocate ncap w with
      | (ndata, w0) =>
        match copyRange ops v.data_ 0 v.size_ ndata w0 with
        | (Res.throw e, j, ndata, w1) => rollback ops v ndata j e w1
        | (Res.ub, _, _, w1) => (Res.ub, v, w1)
        | (Res.ok (), j, ndata, w1) =>
          match fillRange ops val j nsize ndata w1 with
          | (Res.throw e, j, ndata, w2) => rollback ops v ndata j e w2
          | (Res.ub, _, _, w2) => (Res.ub, v, w2)
          | (Res.ok (), _, ndata, w2) =>
            match adopt ops v ndata ncap w2 with
            | (Res.ok (), v', w3) => (Res.ok (), { v' with size_ := nsize }, w3)
            | r => r
  | r => r

/-- The member `Clear()` (vector.h, lines 181-186). -/
def Vector.Clear (ops : ElemOps T W E) (v : Vector T) (w : World W) :
    Res E Unit × Vector T × World W :=
  match destroyRange ops 0 v.size_ v.data_ w with
  | (Res.ok (), _, d, w1) => (Res.ok (), { v with data_ := d, size_ := 0 }, w1)
  | (r, _, d, w1) => (r, { v with data_ := d }, w1)

/-- The `catch (...)` block of the two filling constructors:
`Clear(); delete[] data_; data_ = nullptr; throw;`. -/
def unwind (ops : ElemOps T W E) (v : Vector T) (e : E) (w : World W) :
    Res E Unit × Vector T × World W :=
  match Vector.Clear ops v w with
  | (Res.ok (), v1, w1) => (Res.throw e, { v1 with data_ := none }, release v1.data_ w1)
  | r => r

/-- The loop `for (size_t i = 0; i < size; ++i) PushBack(val);`. -/
def pushRepeat (ops : ElemOps T W E) (val : T) (size : Nat) (v : Vector T) (w : World W) :
    Res E Unit × Nat × Vector T × World W :=
  forRange (fun _ (s : Vector T × World W) => Vector.PushBack ops s.1 val s.2) 0 size (v, w)

/-- The constructor `Vector(size_t size, const T& val)` (vector.h, lines 14-26).
The middle component is the object's members when the constructor is left. -/
def Vector.create (ops : ElemOps T W E) (size : Nat) (val : T) (w : World W) :
    Res E Unit × Vector T × World W :=
  match Vector.Reserve ops Vector.empty size w with
  | (Res.ok (), v1, w1) =>
    match pushRepeat ops val size v1 w1 with
    | (Res.ok (), _, v2, w2) => (Res.ok (), v2, w2)
    | (Res.throw e, _, v2, w2) => unwind ops v2 e w2
    | (Res.ub, _, v2, w2) => (Res.ub, v2, w2)
  | (Res.throw e, v1, w1) => unwind ops v1 e w1
  | (Res.ub, v1, w1) => (Res.ub, v1, w1)

/-- The loop `for (auto it = begin; it != end; ++it) PushBack(*it);` over the
values `xs` the iterator range yields. -/
def pushEach (ops : ElemOps T W E) :
    List T → Vector T → World W → Res E Unit × Vector T × World W
  | [], v, w => (Res.ok (), v, w)
  | x :: xs, v, w =>
    match Vector.PushBack ops v x w with
    | (Res.ok (), v', w') => pushEach ops xs v' w'
    | r => r

/-- The constructor `Vector(Iterator begin, Iterator end)` (vector.h, lines 28-42)
for a range that yields the values `xs`; `std::distance(begin, end)` is `xs.length`. -/
def Vector.fromRange (ops : ElemOps T W E) (xs : List T) (w : World W) :
    Res E Unit × Vector T × World W :=
  match Vector.Reserve ops Vector.empty xs.length w with
  | (Res.ok (), v1, w1) =>
    match pushEach ops xs v1 w1 with
    | (Res.ok (), v2, w2) => (Res.ok (), v2, w2)
    | (Res.throw e, v2, w2) => unwind ops v2 e w2
    | (Res.ub, v2, w2) => (Res.ub, v2, w2)
  | (Res.throw e, v1, w1) => unwind ops v1 e w1
  | (Res.ub, v1, w1) => (Res.ub, v1, w1)

/-- The constructor `Vector(const std::initializer_list<T>& data)`, which
delegates to the range constructor. -/
def Vector.fromList (ops : ElemOps T W E) (data : List T) (w : World W) :
    Res E Unit × Vector T × World W :=
  Vector.fromRange ops data w

/-- The member `operator[]` read as a value; `none` is the failed `assert`. -/
def Vector.index (v : Vector T) (i : Nat) : Option T :=
  if i < v.size_ then readSlot v.data_ i else none

/-- The statement `v[i] = x` for an element type whose assignment stores the
value: `none` is the failed `assert` of `operator[]`. -/
def Vector.assignIndex (v : Vector T) (i : Nat) (x : T) : Option (Vector T) :=
  if i < v.size_ then
    match v.data_ with
    | none => none
    | some b =>
      match b.slots[i]? with
      | some (some _) => some { v with data_ := some { b with slots := b.slots.set i (some x) } }
      | _ => none
  else none

/-- The member `Front()`: `*data_`. -/
def Vector.Front (v : Vector T) : Option T := readSlot v.data_ 0

/-- The member `Back()`: `*(data_ + size_ - 1)`. With `size_ == 0` the pointer
is outside of the block. -/
def Vector.Back (v : Vector T) : Option T :=
  if v.size_ = 0 then none else readSlot v.data_ (v.size_ - 1)

/-- The loop of `operator==`, `k` more iterations from index `i`:
`if (data_[i] != other.data_[i]) return false;`, then `return true`. -/
def eqLoop (ops : ElemOps T W E) (p q : Ptr T) : Nat → Nat → Option Bool
  | 0, _ => some true
  | k + 1, i =>
    match readSlot p i, readSlot q i with
    | some x, some y => if ops.ne x y then some false else eqLoop ops p q k (i + 1)
    | _, _ => none

/-- The member `operator==` (vector.h, lines 276-286); `none` is a read of a slot
that holds no object. -/
def Vector.opEq (ops : ElemOps T W E) (v other : Vector T) : Option Bool :=
  if v.size_ ≠ other.size_ then some false
  else eqLoop ops v.data_ other.data_ (v.size_ - 0) 0

/-! ## The abstraction: a vector as the list of its live elements -/

/-- The values of the live elements, in index order. -/
def Vector.toList (v : Vector T) : List T :=
  match v.data_ with
  | none => []
  | some b => (b.slots.take v.size_).reduceOption

/-- The class invariant of the data model: `size_ ≤ cap_`; storage is held
exactly when `cap_ > 0`; the block has `cap_` slots, of which exactly the first
`size_` hold an object. -/
def Vector.WF (v : Vector T) : Prop :=
  v.size_ ≤ v.cap_ ∧
  match v.data_ with
  | none => v.cap_ = 0
  | some b =>
    0 < v.cap_ ∧ v.toList.length = v.size_ ∧
    b.slots = v.toList.map some ++ List.replicate (v.cap_ - v.size_) none

/-- The element type's copy constructor never throws and yields a value equal
to its argument. -/
def ElemOps.CopyOk (ops : ElemOps T W E) : Prop :=
  ∀ x env, (ops.copy x env).1 = Except.ok x

/-- The element type's copy constructor yields a value equal to its argument
whenever it returns. -/
def ElemOps.CopyExact (ops : ElemOps T W E) : Prop :=
  ∀ x env y, (ops.copy x env).1 = Except.ok y → y = x

/-- The copy constructor run on the values `xs` in order, from state `env`,
up to the first exception: the copies made, the exception if any, the state
after. -/
def copySeq (ops : ElemOps T W E) : List T → W → List T × Option E × W
  | [], env => ([], none, env)
  | x :: xs, env =>
    match ops.copy x env with
    | (Except.ok y, env') =>
      match copySeq ops xs env' with
      | (ys, r, env'') => (y :: ys, r, env'')
    | (Except.error e, env') => ([], some e, env')

/-- The destructor run on the values `xs` in order, from state `env`. -/
def dtorSeq (ops : ElemOps T W E) (xs : List T) (env : W) : W :=
  xs.foldl (fun s x => ops.dtor x s) env

/-- The copy constructor of the test type `EvilInt` (test.cpp, lines 277-300):
it throws `1945` while `counter == 200`, else counts the new object; the
destructor counts it out again. -/
def evilInt : ElemOps Int Nat Int where
  copy := fun x counter => if counter = 200 then (Except.error 1945, counter) else (Except.ok x, counter + 1)
  dtor := fun _ counter => counter - 1
  ne := fun x y => x != y

/-- The element type `int`: copies never throw and touch nothing. -/
def intOps : ElemOps Int Unit Empty where
  copy := fun x u => (Except.ok x, u)
  dtor := fun _ u => u
  ne := fun x y => x != y

/-- The outcome of a run of copies: normal, or the first exception. -/
def status : Option E → Res E Unit
  | none => Res.ok ()
  | some e => Res.throw e

/-- The events of `n` completed constructions in slots `lo, lo+1, ...` of block `id`. -/
def constructEvents (id lo n : Nat) : List Event :=
  (List.range' lo n).map (Event.construct id)

/-- The events of `n` destructions in slots `lo, lo+1, ...` of block `id`. -/
def destroyEvents (id lo n : Nat) : List Event :=
  (List.range' lo n).map (Event.destroy id)

/-- The well-formed vector that holds the values `xs` in block `id`, with
`extra` raw slots after them. -/
def mkVec (id : Nat) (xs : List T) (extra : Nat) : Vector T :=
  { size_ := xs.length, cap_ := xs.length + extra,
    data_ := some { id := id, slots := xs.map some ++ List.replicate extra none } }

/-- The identity of the block a vector holds (`0` when it holds none). -/
def Vector.blockId (v : Vector T) : Nat :=
  match v.data_ with
  | none => 0
  | some b => b.id

/-! ## The reference dynamic array of the test "Random operations" -/

/-- The operations the test draws from. -/
inductive Op (T : Type) where
  /-- `a.PushBack(x)` and `b.push_back(x)` -/
  | pushBack (x : T) : Op T
  /-- `a.PopBack()` and `b.pop_back()` -/
  | popBack : Op T
  /-- `a[i] = x` and `b[i] = x` -/
  | assign (i : Nat) (x : T) : Op T
deriving DecidableEq, Repr

/-- One operation on the vector. -/
def Op.onVector (ops : ElemOps T W E) :
    Op T → Vector T → World W → Res E Unit × Vector T × World W
  | Op.pushBack x, v, w => v.PushBack ops x w
  | Op.popBack, v, w => v.PopBack ops w
  | Op.assign i x, v, w =>
    match v.assignIndex i x with
    | some v' => (Res.ok (), v', w)
    | none => (Res.ub, v, w)

/-- The same operation on the reference, a list of values; `none` when the
operation may not be applied (`pop_back` on an empty list, an index that is
not below the size). -/
def Op.onList : Op T → List T → Option (List T)
  | Op.pushBack x, l => some (l ++ [x])
  | Op.popBack, l => if l.length = 0 then none else some l.dropLast
  | Op.assign i x, l => if i < l.length then some (l.set i x) else none

/-- What the test observes: `Size()`, `Empty()`, `Back()`, and `v[i]` for every
`i < Size()`. -/
structure Obs (T : Type) where
  size : Nat
  empty : Bool
  back : Option T
  elems : List (Option T)
deriving DecidableEq, Repr

/-- The observations made on a vector. -/
def Vector.observe (v : Vector T) : Obs T :=
  { size := v.Size, empty := v.Empty, back := v.Back,
    elems := (List.range v.Size).map v.index }

/-- The observations made on the reference list. -/
def observeList (l : List T) : Obs T :=
  { size := l.length, empty := l.isEmpty, back := l.getLast?,
    elems := (List.range l.length).map (fun i => l[i]?) }

/-- The observations after every step of a run on the vector; the run ends at
the first operation that does not return normally. -/
def runVector (ops : ElemOps T W E) : List (Op T) → Vector T → World W → List (Obs T)
  | [], _, _ => []
  | o :: os, v, w =>
    match o.onVector ops v w with
    | (Res.ok (), v', w') => v'.observe :: runVector ops os v' w'
    | _ => []

/-- The observations after every step of a run on the reference list; the run
ends at the first operation that may not be applied. -/
def runList : List (Op T) → List T → List (Obs T)
  | [], _ => []
  | o :: os, l =>
    match o.onList l with
    | some l' => observeList l' :: runList os l'
    | none => []

/-- Every operation of the run may be applied when its turn comes. -/
def validRun : List (Op T) → List T → Bool
  | [], _ => true
  | o :: os, l =>
    match o.onList l with
    | some l' => validRun os l'
    | none => false

/-! ## The arithmetic of the machine

The definitions so far compute capacities and byte counts in `ℕ`. On the
machine `size_t` has 64 bits, and a block is asked for in bytes:
`cap_ * 2` and `ncap * sizeof(T)` are products modulo `2^64`, and a block of
`b` bytes has room for `b / sizeof(T)` objects. The definitions of this
section repeat the allocation, `Reserve`, `PushBack` and the constructor
`Vector(size, val)` with these two products as the machine computes them, for
an element type with `sizeof(T) = sz`. Requested sizes are values of `size_t`,
below `2^64`. Where neither product wraps they are the definitions above
(`Reserve64_eq`, `create64_eq`); a placement `new` beyond the room of a block
is undefined behaviour, as for every block. -/

/-- The expression `reinterpret_cast<T*>(new char[n * sizeof(T)])` with the byte
count computed in `size_t`: the block has room for the objects that fit into
`(n * sizeof(T)) mod 2^64` bytes. -/
def allocate64 (sz n : Nat) (w : World W) : Ptr T × World W :=
  (some { id := w.next, slots := List.replicate (n * sz % 2 ^ 64 / sz) none },
   { w with next := w.next + 1,
            log := w.log ++ [Event.alloc w.next (n * sz % 2 ^ 64 / sz)] })

/-- The member `Reserve(ncap)` (vector.h, lines 151-175) with `cap_ * 2` and the
byte count computed in `size_t`. -/
def Vector.Reserve64 (ops : ElemOps T W E) (sz : Nat) (v : Vector T) (ncap : Nat)
    (w : World W) : Res E Unit × Vector T × World W :=
  if ncap ≤ v.cap_ then (Res.ok (), v, w)
  else
    let ncap := max ncap (v.cap_ * 2 % 2 ^ 64)
    match allocate64 sz ncap w with
    | (ndata, w0) =>
      match copyRange ops v.data_ 0 v.size_ ndata w0 with
      | (Res.throw e, j, ndata, w1) => rollback ops v ndata j e w1
      | (Res.ub, _, _, w1) => (Res.ub, v, w1)
      | (Res.ok (), _, ndata, w1) => adopt ops v ndata ncap w1

/-- The member `PushBack(x)` (vector.h, lines 188-216) with `cap_ * 2` and the
byte count computed in `size_t`. -/
def Vector.PushBack64 (ops : ElemOps T W E) (sz : Nat) (v : Vector T) (x : T)
    (w : World W) : Res E Unit × Vector T × World W :=
  if v.size_ = v.cap_ then
    let ncap := if v.cap_ ≠ 0 then v.cap_ * 2 % 2 ^ 64 else 1
    match allocate64 sz ncap w with
    | (ndata, w0) =>
      match copyRange ops v.data_ 0 v.size_ ndata w0 with
      | (Res.throw e, j, ndata, w1) => rollback ops v ndata j e w1
      | (Res.ub, _, _, w1) => (Res.ub, v, w1)
      | (Res.ok (), j, ndata, w1) =>
        match construct ops ndata j x w1 with
        | (Res.throw e, ndata, w2) => rollback ops v ndata j e w2
        | (Res.ub, _, w2) => (Res.ub, v, w2)
        | (Res.ok (), ndata, w2) =>
          match adopt ops v ndata ncap w2 with
          | (Res.ok (), v', w3) => (Res.ok (), { v' with size_ := v'.size_ + 1 }, w3)
          | r => r
  else
    match construct ops v.data_ v.size_ x w with
    | (Res.ok (), d, w1) => (Res.ok (), { v with data_ := d, size_ := v.size_ + 1 }, w1)
    | (r, _, w1) => (r, v, w1)

/-- The loop `for (size_t i = 0; i < size; ++i) PushBack(val);` on the machine. -/
def pushRepeat64 (ops : ElemOps T W E) (sz : Nat) (val : T) (size : Nat) (v : Vector T)
    (w : World W) : Res E Unit × Nat × Vector T × World W :=
  forRange (fun _ (s : Vector T × World W) => Vector.PushBack64 ops sz s.1 val s.2) 0 size
    (v, w)

/-- The constructor `Vector(size_t size, const T& val)` (vector.h, lines 14-26)
on the machine. -/
def Vector.create64 (ops : ElemOps T W E) (sz : Nat) (size : Nat) (val : T) (w : World W) :
    Res E Unit × Vector T × World W :=
  match Vector.Reserve64 ops sz Vector.empty size w with
  | (Res.ok (), v1, w1) =>
    match pushRepeat64 ops sz val size v1 w1 with
    | (Res.ok (), _, v2, w2) => (Res.ok (), v2, w2)
    | (Res.throw e, _, v2, w2) => unwind ops v2 e w2
    | (Res.ub, _, v2, w2) => (Res.ub, v2, w2)
  | (Res.throw e, v1, w1) => unwind ops v1 e w1
  | (Res.ub, v1, w1) => (Res.ub, v1, w1)

/-- A run of `PushBack(x)` over the values `xs` on the machine. -/
def pushEach64 (ops : ElemOps T W E) (sz : Nat) :
    List T → Vector T → World W → Res E Unit × Vector T × World W
  | [], v, w => (Res.ok (), v, w)
  | x :: xs, v, w =>
    match Vector.PushBack64 ops sz v x w with
    | (Res.ok (), v', w') => pushEach64 ops sz xs v' w'
    | r => r

/-- An element type like `double` with its NaN: `none` stands for NaN, which
`operator!=` finds unequal to every value, itself included; copies never throw
and are exact. -/
def nanOps : ElemOps (Option Int) Unit Empty where
  copy := fun x u => (Except.ok x, u)
  dtor := fun _ u => u
  ne := fun x y =>
    match x, y with
    | some a, some b => a != b
    | _, _ => true

/-! ## The test "Reserve" (test.cpp, lines 119-130), step by step -/

/-- The statement `Vector<int> a{1, 2, 3};`. -/
def testReserve1 : Res Empty Unit × Vector Int × World Unit :=
  Vector.fromList intOps [1, 2, 3] ⟨(), 0, []⟩

/-- The statement `a.Reserve(228);`, with `sizeof(int) = 4`. -/
def testReserve2 : Res Empty Unit × Vector Int × World Unit :=
  testReserve1.2.1.Reserve64 intOps 4 228 testReserve1.2.2

/-- The loop `for (size_t i = 0; i < 100; ++i) a.PushBack(i);`. -/
def testReserve3 : Res Empty Unit × Vector Int × World Unit :=
  pushEach64 intOps 4 ((List.range 100).map Int.ofNat) testReserve2.2.1 testReserve2.2.2

/-- The statement `a.Reserve(10);`. -/
def testReserve4 : Res Empty Unit × Vector Int × World Unit :=
  testReserve3.2.1.Reserve64 intOps 4 10 testReserve3.2.2

/-! ## Destruction, exchange, copy and move of whole vectors -/

/-- The destructor `~Vector()` (vector.h, lines 55-58): `Clear(); delete[] data_;`.
The middle component is the members the dead object is left with. -/
def Vector.destructor (ops : ElemOps T W E) (v : Vector T) (w : World W) :
    Res E Unit × Vector T × World W :=
  match Vector.Clear ops v w with
  | (Res.ok (), v1, w1) => (Res.ok (), v1, release v1.data_ w1)
  | r => r

/-- The member `Swap(other)` (vector.h, lines 270-274): three `std::swap`s of
members. The result is this object, then `other`. It takes no element
operation and returns no `Res`: no element is touched and nothing can be
thrown. -/
def Vector.Swap (v other : Vector T) (w : World W) : (Vector T × Vector T) × World W :=
  (({ size_ := other.size_, cap_ := other.cap_, data_ := other.data_ },
    { size_ := v.size_, cap_ := v.cap_, data_ := v.data_ }), w)

/-- The move constructor `Vector(Vector&& other)` (vector.h, lines 50-53). The
result is the new object, then `other` as it is left. -/
def Vector.moveCtor (other : Vector T) (w : World W) : (Vector T × Vector T) × World W :=
  (({ size_ := other.size_, cap_ := other.cap_, data_ := other.data_ },
    { size_ := 0, cap_ := 0, data_ := none }), w)

/-- The values `p[i], p[i+1], ...`, `k` of them, as an iterator over `const T*`
yields them; `none` when one of the slots holds no object. -/
def readRange (p : Ptr T) : Nat → Nat → Option (List T)
  | 0, _ => some []
  | k + 1, i =>
    match readSlot p i with
    | none => none
    | some x =>
      match readRange p k (i + 1) with
      | none => none
      | some xs => some (x :: xs)

/-- The copy constructor `Vector(const Vector& other)` (vector.h, lines 47-48),
which delegates to the range constructor over `other.begin() .. other.end()`. -/
def Vector.copyCtor (ops : ElemOps T W E) (other : Vector T) (w : World W) :
    Res E Unit × Vector T × World W :=
  match readRange other.data_ other.size_ 0 with
  | none => (Res.ub, Vector.empty, w)
  | some xs => Vector.fromRange ops xs w

/-- The copy assignment `operator=(const Vector& other)` (vector.h, lines 60-67)
for `this != &other`: `Vector tmp = other; Swap(tmp);`, and `tmp` is destroyed
when the function is left. The result is this object, then `other`. -/
def Vector.copyAssign (ops : ElemOps T W E) (v other : Vector T) (w : World W) :
    Res E Unit × (Vector T × Vector T) × World W :=
  match Vector.copyCtor ops other w with
  | (Res.ok (), tmp, w1) =>
    match Vector.Swap v tmp w1 with
    | ((v1, tmp1), w2) =>
      match Vector.destructor ops tmp1 w2 with
      | (r, _, w3) => (r, (v1, other), w3)
  | (r, _, w1) => (r, (v, other), w1)

/-- The copy assignment `a = a`: `if (this == &other) return *this;`. -/
def Vector.copyAssignSelf (v : Vector T) (w : World W) : Res E Unit × Vector T × World W :=
  (Res.ok (), v, w)

/-- The move assignment `operator=(Vector&& other)` (vector.h, lines 69-76) for
`this != &other`: `Vector tmp = std::move(other); Swap(tmp);`, and `tmp` is
destroyed when the function is left. The result is this object, then `other`. -/
def Vector.moveAssign (ops : ElemOps T W E) (v other : Vector T) (w : World W) :
    Res E Unit × (Vector T × Vector T) × World W :=
  match Vector.moveCtor other w with
  | ((tmp, other1), w1) =>
    match Vector.Swap v tmp w1 with
    | ((v1, tmp1), w2) =>
      match Vector.destructor ops tmp1 w2 with
      | (r, _, w3) => (r, (v1, other1), w3)

/-- The move assignment `a = std::move(a)`: `if (this == &other) return *this;`. -/
def Vector.moveAssignSelf (v : Vector T) (w : World W) : Res E Unit × Vector T × World W :=
  (Res.ok (), v, w)

/-- The member `Assign(n, val)` (vector.h, lines 78-81): `Vector tmp(n, val);
Swap(tmp);`, and `tmp` is destroyed when the function is left. -/
def Vector.Assign (ops : ElemOps T W E) (v : Vector T) (n : Nat) (val : T) (w : World W) :
    Res E Unit × Vector T × World W :=
  match Vector.create ops n val w with
  | (Res.ok (), tmp, w1) =>
    match Vector.Swap v tmp w1 with
    | ((v1, tmp1), w2) =>
      match Vector.destructor ops tmp1 w2 with
      | (r, _, w3) => (r, v1, w3)
  | (r, _, w1) => (r, v, w1)

/-- The exception `std::out_of_range{std::to_string(i)}`; `arg` is the index
whose decimal text is the message. -/
structure OutOfRange where
  arg : Nat
deriving DecidableEq, Repr

/-- The member `At(i)` (vector.h, lines 93-105), read as a value. The second
component is the vector after the call. -/
def Vector.At (v : Vector T) (i : Nat) : Res OutOfRange T × Vector T :=
  if i ≥ v.size_ then (Res.throw { arg := i }, v)
  else
    match readSlot v.data_ i with
    | some x => (Res.ok x, v)
    | none => (Res.ub, v)

/-- The number of completed placement `new`s in a log. -/
def numConstruct (log : List Event) : Nat :=
  (log.filter (fun ev => match ev with
    | Event.construct _ _ => true
    | _ => false)).length

/-- The size and the capacity before each append of a run that allocated a new
block (the allocator handed out an identity); the run ends at the first append
that does not return normally. -/
def growPoints (ops : ElemOps T W E) : List T → Vector T → World W → List (Nat × Nat)
  | [], _, _ => []
  | x :: xs, v, w =>
    match v.PushBack ops x w with
    | (Res.ok (), v', w') =>
      (if w'.next = w.next then [] else [(v.size_, v.cap_)]) ++ growPoints ops xs v' w'
    | _ => []

/-- The bookkeeping of a run of appends that started on an empty vector when
the log held `base` constructions: either nothing was appended yet, or the
capacity is a power of two below twice the size and the constructions made
since the start number `size + capacity - 1`. -/
def Amortized (base : Nat) (v : Vector T) (w : World W) : Prop :=
  (v.size_ = 0 ∧ v.cap_ = 0 ∧ numConstruct w.log = base) ∨
  (0 < v.size_ ∧ (∃ k, v.cap_ = 2 ^ k) ∧ v.cap_ < 2 * v.size_ ∧
    numConstruct w.log + 1 = base + v.size_ + v.cap_)

/-! ## The states a vector can reach -/

/-- The statements `Vector<int> a; a.Reserve(2^63);`, with `sizeof(int) = 4`:
the byte count `2^63 * 4` is `0` modulo `2^64`. -/
def wrapReserve1 : Res Empty Unit × Vector Int × World Unit :=
  (Vector.empty : Vector Int).Reserve64 intOps 4 (2 ^ 63) ⟨(), 0, []⟩

/-- The statement `a.Reserve(2^63 + 1);` after it: `cap_ * 2` is `0` modulo
`2^64`. -/
def wrapReserve2 : Res Empty Unit × Vector Int × World Unit :=
  wrapReserve1.2.1.Reserve64 intOps 4 (2 ^ 63 + 1) wrapReserve1.2.2

/-- The member `Assign(n, val)` (vector.h, lines 78-81) on the machine:
`Vector tmp(n, val); Swap(tmp);`, and `tmp` is destroyed when the function is
left. -/
def Vector.Assign64 (ops : ElemOps T W E) (sz : Nat) (v : Vector T) (n : Nat) (val : T)
    (w : World W) : Res E Unit × Vector T × World W :=
  match Vector.create64 ops sz n val w with
  | (Res.ok (), tmp, w1) =>
    match Vector.Swap v tmp w1 with
    | ((v1, tmp1), w2) =>
      match Vector.destructor ops tmp1 w2 with
      | (r, _, w3) => (r, v1, w3)
  | (r, _, w1) => (r, v, w1)

/-! ## Lemmas on the primitives and loops -/

theorem forLoop_congr {σ : Type} (body body' : Nat → σ → Res E Unit × σ) (k : Nat) :
    ∀ (j : Nat) (s : σ), (∀ i s', j ≤ i → i < j + k → body i s' = body' i s') →
      forLoop body k j s = forLoop body' k j s := by
  induction k with
  | zero => intro j s _; rfl
  | succ k ih =>
    intro j s h
    have h0 : body j s = body' j s := h j s (Nat.le_refl _) (by omega)
    have hrec : ∀ s', forLoop body k (j + 1) s' = forLoop body' k (j + 1) s' :=
      fun s' => ih (j + 1) s' (fun i t h1 h2 => h i t (by omega) (by omega))
    simp only [forLoop, h0, hrec]

theorem getElem?_mid {α : Type} (pre post : List α) (a : α) :
    (pre ++ a :: post)[pre.length]? = some a := by
  rw [List.getElem?_append_right (Nat.le_refl _)]
  simp

theorem set_mid {α : Type} (pre post : List α) (a b : α) :
    (pre ++ a :: post).set pre.length b = pre ++ b :: post := by
  simp

theorem construct_at (ops : ElemOps T W E) (id : Nat) (pre post : List (Option T)) (j : Nat)
    (hj : pre.length = j) (x : T) (w : World W) :
    construct ops (some ⟨id, pre ++ none :: post⟩) j x w =
      match ops.copy x w.env with
      | (Except.ok y, env) =>
        (Res.ok (), some ⟨id, pre ++ some y :: post⟩,
          ⟨env, w.next, w.log ++ [Event.construct id j]⟩)
      | (Except.error e, env) =>
        (Res.throw e, some ⟨id, pre ++ none :: post⟩, ⟨env, w.next, w.log⟩) := by
  subst hj
  simp only [construct, getElem?_mid, set_mid]


theorem destroy_at (ops : ElemOps T W E) (id : Nat) (pre post : List (Option T)) (j : Nat)
    (hj : pre.length = j) (x : T) (w : World W) :
    destroy ops (some ⟨id, pre ++ some x :: post⟩) j w =
      (Res.ok (), some ⟨id, pre ++ none :: post⟩,
        ⟨ops.dtor x w.env, w.next, w.log ++ [Event.destroy id j]⟩) := by
  subst hj
  simp only [destroy, getElem?_mid, set_mid]



/-- A run of placement `new`s over raw slots: the slots after the prefix `pre`
are filled with the copies made, in order, up to the first exception. -/
theorem forLoop_construct (ops : ElemOps T W E) (id : Nat) (post : List (Option T))
    (body : Nat → Ptr T × World W → Res E Unit × Ptr T × World W) (xs : List T) :
    ∀ (j : Nat) (pre : List (Option T)) (w : World W), pre.length = j →
      (∀ i (h : i < xs.length) (s : Ptr T × World W),
        body (j + i) s = construct ops s.1 (j + i) xs[i] s.2) →
      forLoop body xs.length j (some ⟨id, pre ++ List.replicate xs.length none ++ post⟩, w) =
        (status (copySeq ops xs w.env).2.1, j + (copySeq ops xs w.env).1.length,
          some ⟨id, pre ++ (copySeq ops xs w.env).1.map some ++
            List.replicate (xs.length - (copySeq ops xs w.env).1.length) none ++ post⟩,
          ⟨(copySeq ops xs w.env).2.2, w.next,
            w.log ++ constructEvents id j (copySeq ops xs w.env).1.length⟩) := by
  induction xs with
  | nil =>
    intro j pre w _ _
    simp [forLoop, copySeq, status, constructEvents]
  | cons x xs ih =>
    intro j pre w hj hbody
    have h0 := hbody 0 (by simp)
    simp only [Nat.add_zero, List.getElem_cons_zero] at h0
    have hrest : ∀ i (h : i < xs.length) (s : Ptr T × World W),
        body (j + 1 + i) s = construct ops s.1 (j + 1 + i) xs[i] s.2 := by
      intro i h s
      have := hbody (i + 1) (by simp; omega) s
      simpa [Nat.add_assoc, Nat.add_comm 1 i] using this
    have hshape : pre ++ List.replicate (x :: xs).length none ++ post
        = pre ++ none :: (List.replicate xs.length none ++ post) := by
      simp [List.replicate_succ]
    rw [hshape]
    simp only [List.length_cons, forLoop, h0, construct_at ops id pre _ j hj, copySeq]
    rcases hc : ops.copy x w.env with ⟨r, env⟩
    cases r with
    | error e =>
      simp [status, constructEvents, List.replicate_succ]
    | ok y =>
      have hshape2 : pre ++ some y :: (List.replicate xs.length none ++ post)
          = (pre ++ [some y]) ++ List.replicate xs.length none ++ post := by simp
      simp only [hshape2]
      rw [ih (j + 1) (pre ++ [some y]) _ (by simp [hj]) hrest]
      simp only [constructEvents, List.length_cons, List.map_cons, List.range'_succ]
      simp [Nat.add_assoc, Nat.add_comm 1]

/-- A run of destructor calls over live slots: they become raw memory, in
ascending index order. -/
theorem forLoop_destroy (ops : ElemOps T W E) (id : Nat) (post : List (Option T))
    (xs : List T) :
    ∀ (j : Nat) (pre : List (Option T)) (w : World W), pre.length = j →
      forLoop (fun i (s : Ptr T × World W) => destroy ops s.1 i s.2) xs.length j
          (some ⟨id, pre ++ xs.map some ++ post⟩, w) =
        (Res.ok (), j + xs.length,
          some ⟨id, pre ++ List.replicate xs.length none ++ post⟩,
          ⟨dtorSeq ops xs w.env, w.next, w.log ++ destroyEvents id j xs.length⟩) := by
  induction xs with
  | nil =>
    intro j pre w _
    simp [forLoop, dtorSeq, destroyEvents]
  | cons x xs ih =>
    intro j pre w hj
    have hshape : pre ++ (x :: xs).map some ++ post
        = pre ++ some x :: (xs.map some ++ post) := by simp
    rw [hshape]
    simp only [List.length_cons, forLoop, destroy_at ops id pre _ j hj]
    have hshape2 : pre ++ none :: (xs.map some ++ post)
        = (pre ++ [none]) ++ xs.map some ++ post := by simp
    rw [hshape2, ih (j + 1) (pre ++ [none]) _ (by simp [hj])]
    simp only [destroyEvents, List.range'_succ, List.map_cons, dtorSeq, List.foldl_cons]
    simp [Nat.add_assoc, Nat.add_comm 1, List.replicate_succ]

/-! ## Lemmas on well-formed vectors -/

theorem reduceOption_map_some (xs : List T) : (xs.map some).reduceOption = xs := by
  induction xs with
  | nil => rfl
  | cons x xs ih => simp [List.reduceOption_cons_of_some, ih]

theorem toList_mkVec (id : Nat) (xs : List T) (extra : Nat) :
    (mkVec id xs extra).toList = xs := by
  simp only [mkVec, Vector.toList]
  rw [List.take_left' (by simp)]
  exact reduceOption_map_some xs

theorem mkVec_WF (id : Nat) (xs : List T) (extra : Nat) (h : 0 < xs.length + extra) :
    (mkVec id xs extra).WF := by
  have ht := toList_mkVec id xs extra
  refine ⟨by simp [mkVec], ?_⟩
  show 0 < (mkVec id xs extra).cap_ ∧ (mkVec id xs extra).toList.length = (mkVec id xs extra).size_ ∧ _
  rw [ht]
  simp [mkVec, h]

theorem empty_WF : (Vector.empty : Vector T).WF := by
  simp [Vector.WF, Vector.empty]

/-- Every well-formed vector is the empty vector or some `mkVec`. -/
theorem WF_cases {v : Vector T} (h : v.WF) :
    (v = Vector.empty) ∨
    (∃ id extra, 0 < v.toList.length + extra ∧ v = mkVec id v.toList extra) := by
  rcases v with ⟨size, cap, data⟩
  cases data with
  | none =>
    left
    obtain ⟨h1, h2⟩ := h
    simp only at h1 h2
    subst h2
    simp only [Nat.le_zero] at h1
    subst h1
    rfl
  | some b =>
    right
    obtain ⟨h1, h2, h3, h4⟩ := h
    simp only at h1 h2 h3 h4
    refine ⟨b.id, cap - size, by omega, ?_⟩
    rcases b with ⟨id, slots⟩
    simp only at h4
    simp only [mkVec, h3]
    congr 1
    · omega
    · rw [← h4]

theorem WF_size {v : Vector T} (h : v.WF) : v.toList.length = v.size_ := by
  rcases WF_cases h with h | ⟨id, extra, _, h⟩
  · subst h; rfl
  · rw [h, toList_mkVec]; rfl

theorem readSlot_mkVec (id : Nat) (xs : List T) (extra : Nat) (i : Nat) (h : i < xs.length) :
    readSlot (mkVec id xs extra).data_ i = some xs[i] := by
  simp [mkVec, readSlot, List.getElem?_append_left, h]

theorem readSlot_of_WF {v : Vector T} (hwf : v.WF) (i : Nat) (h : i < v.toList.length) :
    readSlot v.data_ i = some v.toList[i] := by
  rcases WF_cases hwf with h0 | ⟨id, extra, _, h0⟩
  · rw [h0] at h; simp [Vector.toList, Vector.empty] at h
  · have := readSlot_mkVec id v.toList extra i h
    rw [← h0] at this
    exact this

/-! ## Lemmas on runs of copies -/

theorem copySeq_length_le (ops : ElemOps T W E) (xs : List T) :
    ∀ env, (copySeq ops xs env).1.length ≤ xs.length := by
  induction xs with
  | nil => intro env; simp [copySeq]
  | cons x xs ih =>
    intro env
    simp only [copySeq]
    rcases hc : ops.copy x env with ⟨r, env1⟩
    cases r with
    | error e => simp
    | ok y =>
      have := ih env1
      simp only [List.length_cons]
      omega

theorem copySeq_none_length (ops : ElemOps T W E) (xs : List T) :
    ∀ env, (copySeq ops xs env).2.1 = none → (copySeq ops xs env).1.length = xs.length := by
  induction xs with
  | nil => intro env _; simp [copySeq]
  | cons x xs ih =>
    intro env
    simp only [copySeq]
    rcases hc : ops.copy x env with ⟨r, env1⟩
    cases r with
    | error e => simp
    | ok y =>
      intro h
      have := ih env1 h
      simp only [List.length_cons]
      omega

theorem copySeq_some_length (ops : ElemOps T W E) (xs : List T) :
    ∀ env e, (copySeq ops xs env).2.1 = some e → (copySeq ops xs env).1.length < xs.length := by
  induction xs with
  | nil => intro env e; simp [copySeq]
  | cons x xs ih =>
    intro env e
    simp only [copySeq]
    rcases hc : ops.copy x env with ⟨r, env1⟩
    cases r with
    | error e => simp
    | ok y =>
      intro h
      have := ih env1 e h
      simp only [List.length_cons]
      omega

theorem copySeq_exact (ops : ElemOps T W E) (hex : ops.CopyExact) (xs : List T) :
    ∀ env, (copySeq ops xs env).1 = xs.take (copySeq ops xs env).1.length := by
  induction xs with
  | nil => intro env; simp [copySeq]
  | cons x xs ih =>
    intro env
    simp only [copySeq]
    rcases hc : ops.copy x env with ⟨r, env1⟩
    cases r with
    | error e => simp
    | ok y =>
      have hy : y = x := hex x env y (by rw [hc])
      have := ih env1
      simp only [List.length_cons, List.take_succ_cons, hy]
      rw [← this]

theorem copySeq_exact_none (ops : ElemOps T W E) (hex : ops.CopyExact) (xs : List T) (env : W)
    (h : (copySeq ops xs env).2.1 = none) : (copySeq ops xs env).1 = xs := by
  have h1 := copySeq_exact ops hex xs env
  rw [copySeq_none_length ops xs env h, List.take_length] at h1
  exact h1

theorem copySeq_ok (ops : ElemOps T W E) (hok : ops.CopyOk) (xs : List T) :
    ∀ env, (copySeq ops xs env).1 = xs ∧ (copySeq ops xs env).2.1 = none := by
  induction xs with
  | nil => intro env; simp [copySeq]
  | cons x xs ih =>
    intro env
    simp only [copySeq]
    have h := hok x env
    rcases hc : ops.copy x env with ⟨r, env1⟩
    rw [hc] at h
    simp only at h
    subst h
    have := ih env1
    simp [this]

theorem copySeq_append (ops : ElemOps T W E) (zs : List T) (xs : List T) :
    ∀ env, copySeq ops (xs ++ zs) env =
      match (copySeq ops xs env).2.1 with
      | none =>
        ((copySeq ops xs env).1 ++ (copySeq ops zs (copySeq ops xs env).2.2).1,
          (copySeq ops zs (copySeq ops xs env).2.2).2.1,
          (copySeq ops zs (copySeq ops xs env).2.2).2.2)
      | some _ => copySeq ops xs env := by
  induction xs with
  | nil => intro env; simp [copySeq]
  | cons x xs ih =>
    intro env
    simp only [List.cons_append, copySeq]
    rcases hc : ops.copy x env with ⟨r, env1⟩
    cases r with
    | error e => simp
    | ok y =>
      have hi := ih env1
      cases h : (copySeq ops xs env1).2.1 with
      | none =>
        rw [h] at hi
        simp only at hi
        simp [hi]
      | some e =>
        rw [h] at hi
        simp only at hi
        simp [hi, h]

theorem CopyExact_of_CopyOk {ops : ElemOps T W E} (hok : ops.CopyOk) : ops.CopyExact := by
  intro x env y h
  rw [hok x env] at h
  injection h with h
  exact h.symm

/-! ## Lemmas on the loops over a block -/

theorem copyRange_spec (ops : ElemOps T W E) {v : Vector T} (hwf : v.WF) (id m : Nat)
    (hm : v.size_ ≤ m) (w : World W) {ys : List T} {r : Option E} {env : W}
    (hc : copySeq ops v.toList w.env = (ys, r, env)) :
    copyRange ops v.data_ 0 v.size_ (some ⟨id, List.replicate m none⟩) w =
      (status r, ys.length, some ⟨id, ys.map some ++ List.replicate (m - ys.length) none⟩,
        ⟨env, w.next, w.log ++ constructEvents id 0 ys.length⟩) := by
  have hlen := WF_size hwf
  have hle := copySeq_length_le ops v.toList w.env
  rw [hc] at hle
  simp only at hle
  have hshape : (List.replicate m none : List (Option T))
      = [] ++ List.replicate v.toList.length none ++ List.replicate (m - v.toList.length) none := by
    rw [List.nil_append, ← List.replicate_add]
    congr 1
    omega
  unfold copyRange forRange
  rw [Nat.sub_zero, ← hlen, hshape]
  rw [forLoop_construct ops id _ _ v.toList 0 [] w rfl]
  · rw [hc]
    simp only [List.nil_append, Nat.zero_add, List.append_assoc, ← List.replicate_add]
    rw [show v.toList.length - ys.length + (m - v.toList.length) = m - ys.length by omega]
  · intro i h s
    simp only [Nat.zero_add, readSlot_of_WF hwf i h]

theorem fillRange_spec (ops : ElemOps T W E) (val : T) (id : Nat) (pre : List (Option T))
    (lo hi m : Nat) (hlo : pre.length = lo) (hm : hi - lo ≤ m) (w : World W)
    {ys : List T} {r : Option E} {env : W}
    (hc : copySeq ops (List.replicate (hi - lo) val) w.env = (ys, r, env)) :
    fillRange ops val lo hi (some ⟨id, pre ++ List.replicate m none⟩) w =
      (status r, lo + ys.length,
        some ⟨id, pre ++ ys.map some ++ List.replicate (m - ys.length) none⟩,
        ⟨env, w.next, w.log ++ constructEvents id lo ys.length⟩) := by
  have hle := copySeq_length_le ops (List.replicate (hi - lo) val) w.env
  rw [hc] at hle
  simp only [List.length_replicate] at hle
  have hshape : pre ++ (List.replicate m none : List (Option T))
      = pre ++ List.replicate (List.replicate (hi - lo) val).length none
          ++ List.replicate (m - (hi - lo)) none := by
    rw [List.append_assoc, ← List.replicate_add, List.length_replicate]
    congr 2
    omega
  unfold fillRange forRange
  rw [List.length_replicate] at hshape
  rw [hshape]
  have h := forLoop_construct ops id (List.replicate (m - (hi - lo)) none)
    (fun j (s : Ptr T × World W) => construct ops s.1 j val s.2)
    (List.replicate (hi - lo) val) lo pre w hlo (by
      intro i h s
      simp)
  rw [List.length_replicate] at h
  rw [h, hc]
  simp only [List.append_assoc, ← List.replicate_add]
  rw [show hi - lo - ys.length + (m - (hi - lo)) = m - ys.length by omega]

theorem destroyRange_spec (ops : ElemOps T W E) (id : Nat) (pre post : List (Option T))
    (xs : List T) (lo hi : Nat) (hlo : pre.length = lo) (hhi : hi = lo + xs.length)
    (w : World W) :
    destroyRange ops lo hi (some ⟨id, pre ++ xs.map some ++ post⟩) w =
      (Res.ok (), hi, some ⟨id, pre ++ List.replicate xs.length none ++ post⟩,
        ⟨dtorSeq ops xs w.env, w.next, w.log ++ destroyEvents id lo xs.length⟩) := by
  subst hhi
  unfold destroyRange forRange
  rw [Nat.add_sub_cancel_left]
  exact forLoop_destroy ops id post xs lo pre w hlo

theorem destroyRange_none (ops : ElemOps T W E) (lo : Nat) (p : Ptr T) (w : World W) :
    destroyRange ops lo lo p w = (Res.ok (), lo, p, w) := by
  simp [destroyRange, forRange, forLoop]

/-- The `catch` block of a reallocating path destroys the copies made and
releases the new block; the vector is as it was. -/
theorem rollback_spec (ops : ElemOps T W E) (v : Vector T) (id : Nat) (ys : List T) (m : Nat)
    (e : E) (w : World W) :
    rollback ops v (some ⟨id, ys.map some ++ List.replicate m none⟩) ys.length e w =
      (Res.throw e, v,
        ⟨dtorSeq ops ys w.env, w.next,
          w.log ++ destroyEvents id 0 ys.length ++ [Event.free id]⟩) := by
  have h := destroyRange_spec ops id [] (List.replicate m none) ys 0 ys.length rfl (by simp) w
  simp only [List.nil_append] at h
  simp only [rollback, h, release]

/-- The old elements are destroyed, the old block released, the new one adopted. -/
theorem adopt_spec (ops : ElemOps T W E) {v : Vector T} (hwf : v.WF) (nd : Ptr T) (ncap : Nat)
    (w : World W) :
    adopt ops v nd ncap w =
      (Res.ok (), ⟨v.size_, ncap, nd⟩,
        release v.data_ ⟨dtorSeq ops v.toList w.env, w.next,
          w.log ++ destroyEvents v.blockId 0 v.size_⟩) := by
  rcases WF_cases hwf with h0 | ⟨id, extra, _, h0⟩
  · subst h0
    simp [adopt, Vector.empty, destroyRange_none, release, Vector.toList, dtorSeq,
      destroyEvents]
  · generalize v.toList = xs at h0
    subst h0
    have h := destroyRange_spec ops id [] (List.replicate extra none) xs 0 xs.length rfl
      (by simp) w
    simp only [List.nil_append] at h
    simp only [adopt, mkVec, h, release, Vector.blockId, toList_mkVec]

/-! ## What each member function does on a well-formed vector -/

theorem mkVec_eq_of_size {v : Vector T} (ys : List T) (id ncap : Nat)
    (hlen : ys.length = v.size_) (hcap : v.size_ ≤ ncap) :
    (⟨v.size_, ncap, some ⟨id, ys.map some ++ List.replicate (ncap - ys.length) none⟩⟩ : Vector T)
      = mkVec id ys (ncap - v.size_) := by
  simp only [mkVec, hlen]
  congr 1
  omega

theorem Reserve_noop (ops : ElemOps T W E) (v : Vector T) (n : Nat) (w : World W)
    (h : n ≤ v.cap_) : v.Reserve ops n w = (Res.ok (), v, w) := by
  simp [Vector.Reserve, h]

theorem Reserve_throw (ops : ElemOps T W E) {v : Vector T} (hwf : v.WF) (n : Nat)
    (h : v.cap_ < n) (w : World W) {ys : List T} {e : E} {env : W}
    (hc : copySeq ops v.toList w.env = (ys, some e, env)) :
    v.Reserve ops n w =
      (Res.throw e, v,
        ⟨dtorSeq ops ys env, w.next + 1,
          w.log ++ [Event.alloc w.next (max n (v.cap_ * 2))] ++ constructEvents w.next 0 ys.length
            ++ destroyEvents w.next 0 ys.length ++ [Event.free w.next]⟩) := by
  have hsz : v.size_ ≤ max n (v.cap_ * 2) := by have := hwf.1; omega
  simp only [Vector.Reserve, Nat.not_le.mpr h, if_false, allocate]
  rw [copyRange_spec ops hwf w.next _ hsz ⟨w.env, w.next + 1, _⟩ hc]
  simp only [status, rollback_spec]

theorem Reserve_ok (ops : ElemOps T W E) {v : Vector T} (hwf : v.WF) (n : Nat)
    (h : v.cap_ < n) (w : World W) {ys : List T} {env : W}
    (hc : copySeq ops v.toList w.env = (ys, none, env)) :
    v.Reserve ops n w =
      (Res.ok (), mkVec w.next ys (max n (v.cap_ * 2) - v.size_),
        release v.data_ ⟨dtorSeq ops v.toList env, w.next + 1,
          w.log ++ [Event.alloc w.next (max n (v.cap_ * 2))] ++ constructEvents w.next 0 v.size_
            ++ destroyEvents v.blockId 0 v.size_⟩) := by
  have hsz : v.size_ ≤ max n (v.cap_ * 2) := by have := hwf.1; omega
  have hlen : ys.length = v.size_ := by
    have := copySeq_none_length ops v.toList w.env (by rw [hc])
    rw [hc, WF_size hwf] at this
    exact this
  simp only [Vector.Reserve, Nat.not_le.mpr h, if_false, allocate]
  rw [copyRange_spec ops hwf w.next _ hsz ⟨w.env, w.next + 1, _⟩ hc]
  simp only [status, adopt_spec ops hwf]
  rw [mkVec_eq_of_size ys w.next _ hlen hsz, hlen]

theorem PushBack_grow_throw_copy (ops : ElemOps T W E) {v : Vector T} (hwf : v.WF) (x : T)
    (h : v.size_ = v.cap_) (w : World W) {ys : List T} {e : E} {env : W}
    (hc : copySeq ops v.toList w.env = (ys, some e, env)) :
    v.PushBack ops x w =
      (Res.throw e, v,
        ⟨dtorSeq ops ys env, w.next + 1,
          w.log ++ [Event.alloc w.next (if v.cap_ ≠ 0 then v.cap_ * 2 else 1)]
            ++ constructEvents w.next 0 ys.length
            ++ destroyEvents w.next 0 ys.length ++ [Event.free w.next]⟩) := by
  have hsz : v.size_ ≤ (if v.cap_ ≠ 0 then v.cap_ * 2 else 1) := by split <;> omega
  simp only [Vector.PushBack, if_pos h, allocate]
  rw [copyRange_spec ops hwf w.next _ hsz ⟨w.env, w.next + 1, _⟩ hc]
  simp only [status, rollback_spec]

theorem PushBack_grow_throw_new (ops : ElemOps T W E) {v : Vector T} (hwf : v.WF) (x : T)
    (h : v.size_ = v.cap_) (w : World W) {ys : List T} {e : E} {env env2 : W}
    (hc : copySeq ops v.toList w.env = (ys, none, env))
    (hx : ops.copy x env = (Except.error e, env2)) :
    v.PushBack ops x w =
      (Res.throw e, v,
        ⟨dtorSeq ops ys env2, w.next + 1,
          w.log ++ [Event.alloc w.next (if v.cap_ ≠ 0 then v.cap_ * 2 else 1)]
            ++ constructEvents w.next 0 ys.length
            ++ destroyEvents w.next 0 ys.length ++ [Event.free w.next]⟩) := by
  have hsz : v.size_ < (if v.cap_ ≠ 0 then v.cap_ * 2 else 1) := by split <;> omega
  have hlen : ys.length = v.size_ := by
    have := copySeq_none_length ops v.toList w.env (by rw [hc])
    rw [hc, WF_size hwf] at this
    exact this
  simp only [Vector.PushBack, if_pos h, allocate]
  rw [copyRange_spec ops hwf w.next _ (Nat.le_of_lt hsz) ⟨w.env, w.next + 1, _⟩ hc]
  simp only [status]
  obtain ⟨k, hk⟩ : ∃ k, (if v.cap_ ≠ 0 then v.cap_ * 2 else 1) - ys.length = k + 1 :=
    ⟨(if v.cap_ ≠ 0 then v.cap_ * 2 else 1) - ys.length - 1, by omega⟩
  rw [hk, List.replicate_succ, construct_at ops w.next _ _ ys.length (by simp), hx]
  simp only
  rw [← List.replicate_succ, rollback_spec]

theorem PushBack_grow_ok (ops : ElemOps T W E) {v : Vector T} (hwf : v.WF) (x : T)
    (h : v.size_ = v.cap_) (w : World W) {ys : List T} {y : T} {env env2 : W}
    (hc : copySeq ops v.toList w.env = (ys, none, env))
    (hx : ops.copy x env = (Except.ok y, env2)) :
    v.PushBack ops x w =
      (Res.ok (),
        mkVec w.next (ys ++ [y]) ((if v.cap_ ≠ 0 then v.cap_ * 2 else 1) - (v.size_ + 1)),
        release v.data_ ⟨dtorSeq ops v.toList env2, w.next + 1,
          w.log ++ [Event.alloc w.next (if v.cap_ ≠ 0 then v.cap_ * 2 else 1)]
            ++ constructEvents w.next 0 (v.size_ + 1)
            ++ destroyEvents v.blockId 0 v.size_⟩) := by
  have hsz : v.size_ < (if v.cap_ ≠ 0 then v.cap_ * 2 else 1) := by split <;> omega
  have hlen : ys.length = v.size_ := by
    have := copySeq_none_length ops v.toList w.env (by rw [hc])
    rw [hc, WF_size hwf] at this
    exact this
  simp only [Vector.PushBack, if_pos h, allocate]
  rw [copyRange_spec ops hwf w.next _ (Nat.le_of_lt hsz) ⟨w.env, w.next + 1, _⟩ hc]
  simp only [status]
  obtain ⟨k, hk⟩ : ∃ k, (if v.cap_ ≠ 0 then v.cap_ * 2 else 1) - ys.length = k + 1 :=
    ⟨(if v.cap_ ≠ 0 then v.cap_ * 2 else 1) - ys.length - 1, by omega⟩
  rw [hk, List.replicate_succ, construct_at ops w.next _ _ ys.length (by simp), hx]
  simp only [adopt_spec ops hwf]
  have hk2 : (if v.cap_ ≠ 0 then v.cap_ * 2 else 1) - (v.size_ + 1) = k := by omega
  rw [hk2]
  simp only [mkVec, List.map_append, List.map_cons, List.map_nil, List.append_assoc,
    List.singleton_append, List.length_append, List.length_singleton, hlen, constructEvents,
    List.range'_concat, List.map_append, Nat.zero_add, Nat.one_mul]
  refine Prod.ext rfl (Prod.ext ?_ ?_)
  · simp only
    congr 1
    omega
  · simp

theorem PushBack_inplace (ops : ElemOps T W E) {v : Vector T} (hwf : v.WF) (x : T)
    (h : v.size_ ≠ v.cap_) (w : World W) :
    v.PushBack ops x w =
      match ops.copy x w.env with
      | (Except.ok y, env) =>
        (Res.ok (), mkVec v.blockId (v.toList ++ [y]) (v.cap_ - (v.size_ + 1)),
          ⟨env, w.next, w.log ++ [Event.construct v.blockId v.size_]⟩)
      | (Except.error e, env) => (Res.throw e, v, ⟨env, w.next, w.log⟩) := by
  rcases WF_cases hwf with h0 | ⟨id, extra, hpos, h0⟩
  · rw [h0] at h; exact absurd rfl h
  · generalize v.toList = xs at h0
    subst h0
    rcases extra with _ | k
    · exact absurd rfl h
    · simp only [Vector.PushBack, mkVec, Vector.blockId, List.replicate_succ]
      rw [if_neg (by omega), construct_at ops id _ _ xs.length (by simp)]
      rcases ops.copy x w.env with ⟨r, env⟩
      cases r with
      | error e => rfl
      | ok y =>
        simp only [List.map_append, List.map_cons, List.map_nil, List.append_assoc,
          List.singleton_append, List.length_append, List.length_singleton]
        refine Prod.ext rfl (Prod.ext ?_ rfl)
        simp only
        congr 1
        · omega
        · rw [show xs.length + (k + 1) - (xs.length + 1) = k by omega]

theorem PopBack_spec (ops : ElemOps T W E) (id : Nat) (xs : List T) (x : T) (extra : Nat)
    (w : World W) :
    (mkVec id (xs ++ [x]) extra).PopBack ops w =
      (Res.ok (), mkVec id xs (extra + 1),
        ⟨ops.dtor x w.env, w.next, w.log ++ [Event.destroy id xs.length]⟩) := by
  simp only [Vector.PopBack, mkVec, List.length_append, List.length_singleton,
    Nat.add_one_ne_zero, if_false, Nat.add_sub_cancel, List.map_append, List.map_cons,
    List.map_nil, List.append_assoc, List.singleton_append]
  rw [destroy_at ops id _ _ xs.length (by simp)]
  simp only [List.replicate_succ]
  refine Prod.ext rfl (Prod.ext ?_ rfl)
  simp only
  congr 1
  omega

theorem popWhile_skip (ops : ElemOps T W E) (nsize k : Nat) (v : Vector T) (w : World W)
    (h : v.size_ ≤ nsize) : popWhile ops nsize k v w = (Res.ok (), v, w) := by
  cases k with
  | zero => rfl
  | succ k => simp [popWhile, Nat.not_lt.mpr h]

/-- The shrinking loop of `Resize` destroys the elements after the first
`keep.length`, last one first, and stops there. -/
theorem popWhile_spec (ops : ElemOps T W E) (id : Nat) (keep : List T) (rd : List T) :
    ∀ (extra k : Nat) (w : World W), rd.length ≤ k →
      popWhile ops keep.length k (mkVec id (keep ++ rd.reverse) extra) w =
        (Res.ok (), mkVec id keep (extra + rd.length),
          ⟨dtorSeq ops rd w.env, w.next,
            w.log ++ (destroyEvents id keep.length rd.length).reverse⟩) := by
  induction rd with
  | nil =>
    intro extra k w _
    rw [popWhile_skip _ _ _ _ _ (by simp [mkVec])]
    simp [dtorSeq, destroyEvents]
  | cons x rd ih =>
    intro extra k w hk
    obtain ⟨k, rfl⟩ : ∃ k', k = k' + 1 := ⟨k - 1, by simp at hk; omega⟩
    have hgt : (mkVec id (keep ++ (x :: rd).reverse) extra).size_ > keep.length := by
      simp [mkVec]
    simp only [popWhile, if_pos hgt]
    rw [List.reverse_cons, ← List.append_assoc, PopBack_spec]
    simp only
    rw [ih (extra + 1) k _ (by simp at hk; omega)]
    simp only [dtorSeq, List.foldl_cons, List.length_cons, destroyEvents, List.range'_concat,
      List.map_append, List.reverse_append, List.length_append, List.length_reverse,
      List.map_cons, List.map_nil, List.reverse_cons, List.reverse_nil, List.nil_append,
      List.singleton_append, Nat.one_mul]
    refine Prod.ext rfl (Prod.ext ?_ ?_)
    · simp only
      congr 1
      omega
    · simp

theorem Resize_shrink (ops : ElemOps T W E) (id : Nat) (keep rd : List T) (extra : Nat)
    (val : T) (w : World W) :
    (mkVec id (keep ++ rd.reverse) extra).Resize ops keep.length val w =
      (Res.ok (), mkVec id keep (extra + rd.length),
        ⟨dtorSeq ops rd w.env, w.next,
          w.log ++ (destroyEvents id keep.length rd.length).reverse⟩) := by
  unfold Vector.Resize
  rw [popWhile_spec ops id keep rd extra _ w (by simp [mkVec])]
  simp [mkVec]

theorem Resize_same (ops : ElemOps T W E) (v : Vector T) (val : T) (w : World W) :
    v.Resize ops v.size_ val w = (Res.ok (), v, w) := by
  unfold Vector.Resize
  rw [popWhile_skip ops _ _ v w (Nat.le_refl _)]
  simp

theorem Resize_inplace_throw (ops : ElemOps T W E) {v : Vector T} (hwf : v.WF) (n : Nat)
    (val : T) (h1 : v.size_ < n) (h2 : n ≤ v.cap_) (w : World W)
    {ys : List T} {e : E} {env : W}
    (hc : copySeq ops (List.replicate (n - v.size_) val) w.env = (ys, some e, env)) :
    v.Resize ops n val w =
      (Res.throw e, v,
        ⟨dtorSeq ops ys env, w.next,
          w.log ++ constructEvents v.blockId v.size_ ys.length
            ++ destroyEvents v.blockId v.size_ ys.length⟩) := by
  have hle := copySeq_length_le ops (List.replicate (n - v.size_) val) w.env
  rw [hc] at hle
  simp only [List.length_replicate] at hle
  rcases WF_cases hwf with h0 | ⟨id, extra, hpos, h0⟩
  · rw [h0] at h1 h2; simp [Vector.empty] at h1 h2; omega
  · generalize v.toList = xs at h0
    subst h0
    simp only [mkVec, Vector.blockId] at h1 h2 hc hle ⊢
    unfold Vector.Resize
    rw [popWhile_skip ops _ _ _ w (Nat.le_of_lt h1)]
    simp only [if_neg (Nat.ne_of_lt h1), if_pos h2]
    rw [fillRange_spec ops val id (xs.map some) xs.length n extra (by simp) (by omega) w hc]
    simp only [status]
    rw [destroyRange_spec ops id (xs.map some) _ ys xs.length _ (by simp) rfl]
    simp only [← List.replicate_add, List.append_assoc]
    rw [show ys.length + (extra - ys.length) = extra by omega]

theorem Resize_inplace_ok (ops : ElemOps T W E) {v : Vector T} (hwf : v.WF) (n : Nat)
    (val : T) (h1 : v.size_ < n) (h2 : n ≤ v.cap_) (w : World W)
    {ys : List T} {env : W}
    (hc : copySeq ops (List.replicate (n - v.size_) val) w.env = (ys, none, env)) :
    v.Resize ops n val w =
      (Res.ok (), mkVec v.blockId (v.toList ++ ys) (v.cap_ - n),
        ⟨env, w.next, w.log ++ constructEvents v.blockId v.size_ (n - v.size_)⟩) := by
  have hlen := copySeq_none_length ops (List.replicate (n - v.size_) val) w.env (by rw [hc])
  rw [hc] at hlen
  simp only [List.length_replicate] at hlen
  rcases WF_cases hwf with h0 | ⟨id, extra, hpos, h0⟩
  · rw [h0] at h1 h2; simp [Vector.empty] at h1 h2; omega
  · generalize v.toList = xs at h0
    subst h0
    simp only [mkVec, Vector.blockId] at h1 h2 hc hlen ⊢
    unfold Vector.Resize
    rw [popWhile_skip ops _ _ _ w (Nat.le_of_lt h1)]
    simp only [if_neg (Nat.ne_of_lt h1), if_pos h2]
    rw [fillRange_spec ops val id (xs.map some) xs.length n extra (by simp) (by omega) w hc]
    simp only [status, hlen, List.map_append, List.length_append]
    refine Prod.ext rfl (Prod.ext ?_ rfl)
    simp only
    congr 1
    all_goals first
      | omega
      | rw [show extra - (n - xs.length) = xs.length + extra - n by omega]

theorem constructEvents_append (id a b : Nat) :
    constructEvents id 0 a ++ constructEvents id a b = constructEvents id 0 (a + b) := by
  have h := List.range'_append_1 0 a b
  rw [Nat.zero_add, Nat.add_comm b a] at h
  simp only [constructEvents, ← List.map_append, h]

theorem Resize_grow_throw (ops : ElemOps T W E) {v : Vector T} (hwf : v.WF) (n : Nat)
    (val : T) (h : v.cap_ < n) (w : World W) {ys : List T} {e : E} {env : W}
    (hc : copySeq ops (v.toList ++ List.replicate (n - v.size_) val) w.env
      = (ys, some e, env)) :
    v.Resize ops n val w =
      (Res.throw e, v,
        ⟨dtorSeq ops ys env, w.next + 1,
          w.log ++ [Event.alloc w.next (max n (v.cap_ * 2))] ++ constructEvents w.next 0 ys.length
            ++ destroyEvents w.next 0 ys.length ++ [Event.free w.next]⟩) := by
  have hsc := hwf.1
  have hsz : v.size_ ≤ max n (v.cap_ * 2) := by omega
  unfold Vector.Resize
  rw [popWhile_skip ops _ _ v w (by omega)]
  simp only [if_neg (show v.size_ ≠ n by omega), if_neg (Nat.not_le.mpr h), allocate]
  have happ := copySeq_append ops (List.replicate (n - v.size_) val) v.toList w.env
  rw [hc] at happ
  rcases h1 : copySeq ops v.toList w.env with ⟨ys1, r1, env1⟩
  rw [h1] at happ
  rw [copyRange_spec ops hwf w.next _ hsz ⟨w.env, w.next + 1, _⟩ h1]
  cases r1 with
  | some e1 =>
    simp only [Prod.mk.injEq, Option.some.injEq] at happ
    obtain ⟨rfl, rfl, rfl⟩ := happ
    simp only [status, rollback_spec]
  | none =>
    have hlen : ys1.length = v.size_ := by
      have := copySeq_none_length ops v.toList w.env (by rw [h1])
      rw [h1, WF_size hwf] at this
      exact this
    rcases h2 : copySeq ops (List.replicate (n - v.size_) val) env1 with ⟨ys2, r2, env2⟩
    rw [h2] at happ
    simp only [Prod.mk.injEq] at happ
    obtain ⟨rfl, rfl, rfl⟩ := happ
    have hle := copySeq_length_le ops (List.replicate (n - v.size_) val) env1
    rw [h2] at hle
    simp only [List.length_replicate] at hle
    simp only [status, hlen]
    rw [fillRange_spec ops val w.next (ys1.map some) v.size_ n _ (by simp [hlen]) (by omega)
      ⟨env1, w.next + 1, _⟩ h2]
    simp only [status]
    have hr := rollback_spec ops v w.next (ys1 ++ ys2)
      (max n (v.cap_ * 2) - v.size_ - ys2.length) e
      ⟨env, w.next + 1, (w.log ++ [Event.alloc w.next (max n (v.cap_ * 2))]
        ++ constructEvents w.next 0 v.size_) ++ constructEvents w.next v.size_ ys2.length⟩
    simp only [List.map_append, List.length_append, hlen] at hr
    rw [hr]
    simp only [List.length_append, hlen, ← constructEvents_append, List.append_assoc]

theorem Resize_grow_ok (ops : ElemOps T W E) {v : Vector T} (hwf : v.WF) (n : Nat)
    (val : T) (h : v.cap_ < n) (w : World W) {ys : List T} {env : W}
    (hc : copySeq ops (v.toList ++ List.replicate (n - v.size_) val) w.env
      = (ys, none, env)) :
    v.Resize ops n val w =
      (Res.ok (), mkVec w.next ys (max n (v.cap_ * 2) - n),
        release v.data_ ⟨dtorSeq ops v.toList env, w.next + 1,
          w.log ++ [Event.alloc w.next (max n (v.cap_ * 2))] ++ constructEvents w.next 0 n
            ++ destroyEvents v.blockId 0 v.size_⟩) := by
  have hsc := hwf.1
  have hsz : v.size_ ≤ max n (v.cap_ * 2) := by omega
  unfold Vector.Resize
  rw [popWhile_skip ops _ _ v w (by omega)]
  simp only [if_neg (show v.size_ ≠ n by omega), if_neg (Nat.not_le.mpr h), allocate]
  have happ := copySeq_append ops (List.replicate (n - v.size_) val) v.toList w.env
  rw [hc] at happ
  rcases h1 : copySeq ops v.toList w.env with ⟨ys1, r1, env1⟩
  rw [h1] at happ
  rw [copyRange_spec ops hwf w.next _ hsz ⟨w.env, w.next + 1, _⟩ h1]
  cases r1 with
  | some e1 => simp at happ
  | none =>
    have hlen : ys1.length = v.size_ := by
      have := copySeq_none_length ops v.toList w.env (by rw [h1])
      rw [h1, WF_size hwf] at this
      exact this
    rcases h2 : copySeq ops (List.replicate (n - v.size_) val) env1 with ⟨ys2, r2, env2⟩
    rw [h2] at happ
    simp only [Prod.mk.injEq] at happ
    obtain ⟨rfl, rfl, rfl⟩ := happ
    have hlen2 := copySeq_none_length ops (List.replicate (n - v.size_) val) env1 (by rw [h2])
    rw [h2] at hlen2
    simp only [List.length_replicate] at hlen2
    simp only [status, hlen]
    rw [fillRange_spec ops val w.next (ys1.map some) v.size_ n _ (by simp [hlen]) (by omega)
      ⟨env1, w.next + 1, _⟩ h2]
    simp only [status, adopt_spec ops hwf, hlen2]
    simp only [mkVec, List.length_append, hlen, hlen2, List.append_assoc,
      List.map_append, Nat.zero_add]
    refine Prod.ext rfl (Prod.ext ?_ ?_)
    · simp only
      congr 1
      all_goals first
        | omega
        | rw [show max n (v.cap_ * 2) - v.size_ - (n - v.size_) = max n (v.cap_ * 2) - n by omega]
    · simp only
      rw [show constructEvents w.next 0 n
        = constructEvents w.next 0 v.size_ ++ constructEvents w.next v.size_ (n - v.size_) by
          rw [constructEvents_append, show v.size_ + (n - v.size_) = n by omega] ]
      simp only [List.append_assoc]

/-! ## The strong guarantee (claims C1, C2, C3) -/

/-- Claim C1. `PushBack(x)` on a well-formed vector makes these copies in order:
on the growing path (`size_ == cap_`) every element, then `x`; on the in-place
path only `x`. The call throws exactly when one of them throws, with that very
exception (otherwise it returns normally; it never runs into undefined
behaviour), and whenever it throws, the vector (size, capacity, block and every
element) is exactly what it was before the call. -/
theorem C1_PushBack_strong_guarantee (ops : ElemOps T W E) (v : Vector T) (hwf : v.WF) (x : T)
    (w : World W) :
    (v.PushBack ops x w).1 =
        status (copySeq ops (if v.size_ = v.cap_ then v.toList ++ [x] else [x]) w.env).2.1 ∧
      ∀ e, (v.PushBack ops x w).1 = Res.throw e → (v.PushBack ops x w).2.1 = v := by
  by_cases h : v.size_ = v.cap_
  · rw [if_pos h]
    have happ := copySeq_append ops [x] v.toList w.env
    rcases h1 : copySeq ops v.toList w.env with ⟨ys, r, env⟩
    rw [h1] at happ
    cases r with
    | some e =>
      rw [PushBack_grow_throw_copy ops hwf x h w h1, happ]
      simp [status]
    | none =>
      simp only [copySeq] at happ
      rcases hx : ops.copy x env with ⟨rx, env2⟩
      rw [hx] at happ
      cases rx with
      | error e =>
        rw [PushBack_grow_throw_new ops hwf x h w h1 hx, happ]
        simp [status]
      | ok y =>
        rw [PushBack_grow_ok ops hwf x h w h1 hx, happ]
        simp [status]
  · rw [if_neg h, PushBack_inplace ops hwf x h w]
    simp only [copySeq]
    rcases hx : ops.copy x w.env with ⟨rx, env2⟩
    cases rx with
    | error e => simp [status]
    | ok y => simp [status]

/-- Claim C1 at a full vector of two `EvilInt` while `counter == 200`:
`PushBack` has to grow, the copy of the first element throws `1945`, and the
vector keeps its size, its capacity and its two elements. -/
theorem C1_PushBack_strong_guarantee_witness :
    (mkVec 0 [(0 : Int), 1] 0).WF ∧
      ((mkVec 0 [(0 : Int), 1] 0).PushBack evilInt 2 ⟨200, 1, []⟩).1 = Res.throw 1945 ∧
      ((mkVec 0 [(0 : Int), 1] 0).PushBack evilInt 2 ⟨200, 1, []⟩).2.1 = mkVec 0 [0, 1] 0 :=
  have hwf : (mkVec 0 [(0 : Int), 1] 0).WF := mkVec_WF 0 [0, 1] 0 (by decide)
  have h := C1_PushBack_strong_guarantee evilInt (mkVec 0 [(0 : Int), 1] 0) hwf 2 ⟨200, 1, []⟩
  ⟨hwf, h.1.trans (by decide), h.2 1945 (h.1.trans (by decide))⟩

/-- With copies that never throw and are exact, `PushBack` appends. -/
theorem PushBack_of_CopyOk (ops : ElemOps T W E) (hok : ops.CopyOk) {v : Vector T}
    (hwf : v.WF) (x : T) (w : World W) :
    ∃ id w', v.PushBack ops x w =
      (Res.ok (),
        mkVec id (v.toList ++ [x])
          ((if v.size_ = v.cap_ then (if v.cap_ ≠ 0 then v.cap_ * 2 else 1) else v.cap_)
            - (v.size_ + 1)), w') := by
  by_cases h : v.size_ = v.cap_
  · have h1 := copySeq_ok ops hok v.toList w.env
    rcases hc : copySeq ops v.toList w.env with ⟨ys, r, env⟩
    rw [hc] at h1
    obtain ⟨rfl, rfl⟩ := h1
    have hx := hok x env
    rcases hx2 : ops.copy x env with ⟨rx, env2⟩
    rw [hx2] at hx
    simp only at hx
    subst hx
    rw [PushBack_grow_ok ops hwf x h w hc hx2, if_pos h]
    exact ⟨_, _, rfl⟩
  · rw [PushBack_inplace ops hwf x h w, if_neg h]
    have hx := hok x w.env
    rcases hx2 : ops.copy x w.env with ⟨rx, env2⟩
    rw [hx2] at hx
    simp only at hx
    subst hx
    exact ⟨_, _, rfl⟩

theorem PopBack_of_WF (ops : ElemOps T W E) {v : Vector T} (hwf : v.WF) (h : v.size_ ≠ 0)
    (w : World W) :
    ∃ w', v.PopBack ops w =
      (Res.ok (), mkVec v.blockId v.toList.dropLast (v.cap_ - v.size_ + 1), w') := by
  rcases WF_cases hwf with h0 | ⟨id, extra, hpos, h0⟩
  · rw [h0] at h; exact absurd rfl h
  · generalize v.toList = xs at h0
    subst h0
    have hne : xs ≠ [] := by
      intro hx; subst hx; exact h rfl
    obtain ⟨ini, lst, rfl⟩ : ∃ ini lst, xs = ini ++ [lst] :=
      ⟨xs.dropLast, xs.getLast hne, (List.dropLast_append_getLast hne).symm⟩
    rw [PopBack_spec]
    simp only [mkVec, Vector.blockId, List.dropLast_concat, Nat.add_sub_cancel_left]
    exact ⟨_, rfl⟩

theorem assignIndex_of_WF {v : Vector T} (hwf : v.WF) (i : Nat) (x : T) (h : i < v.size_) :
    v.assignIndex i x = some (mkVec v.blockId (v.toList.set i x) (v.cap_ - v.size_)) := by
  rcases WF_cases hwf with h0 | ⟨id, extra, hpos, h0⟩
  · rw [h0] at h; simp [Vector.empty] at h
  · generalize v.toList = xs at h0
    subst h0
    simp only [mkVec] at h
    simp only [Vector.assignIndex, mkVec, if_pos h, Vector.blockId, Nat.add_sub_cancel_left,
      List.getElem?_append_left (show i < (xs.map some).length by simpa using h),
      List.getElem?_map, List.getElem?_eq_getElem h, Option.map_some',
      List.set_append_left i (some x) (show i < (xs.map some).length by simpa using h),
      List.length_set, List.map_set]

/-- On a well-formed vector the test observes what it would on the list of the
live elements. -/
theorem observe_of_WF {v : Vector T} (hwf : v.WF) : v.observe = observeList v.toList := by
  have hlen := WF_size hwf
  simp only [Vector.observe, observeList, Vector.Size, Vector.Empty, ← hlen]
  refine congr (congr (congrArg (Obs.mk _) ?_) ?_) ?_
  · cases v.toList <;> simp
  · simp only [Vector.Back, ← hlen]
    by_cases he : v.toList.length = 0
    · simp [he, List.length_eq_zero.mp he]
    · rw [if_neg he, readSlot_of_WF hwf _ (by omega), List.getLast?_eq_getElem?,
        List.getElem?_eq_getElem (by omega)]
  · apply List.map_congr_left
    intro i hi
    rw [List.mem_range] at hi
    simp only [Vector.index, ← hlen, if_pos hi, readSlot_of_WF hwf i hi,
      List.getElem?_eq_getElem hi]

/-- One applicable operation takes a well-formed vector to a well-formed vector
that holds what the reference list holds. -/
theorem step_refines (ops : ElemOps T W E) (hok : ops.CopyOk) {v : Vector T} (hwf : v.WF)
    (o : Op T) (w : World W) {l : List T} (h : o.onList v.toList = some l) :
    ∃ v' w', o.onVector ops v w = (Res.ok (), v', w') ∧ v'.WF ∧ v'.toList = l := by
  have hlen := WF_size hwf
  cases o with
  | pushBack x =>
    simp only [Op.onList, Option.some.injEq] at h
    obtain ⟨id, w', hp⟩ := PushBack_of_CopyOk ops hok hwf x w
    refine ⟨_, _, hp, mkVec_WF _ _ _ (by simp), ?_⟩
    rw [toList_mkVec, h]
  | popBack =>
    simp only [Op.onList] at h
    split at h
    · exact absurd h (by simp)
    · rename_i hne
      simp only [Option.some.injEq] at h
      obtain ⟨w', hp⟩ := PopBack_of_WF ops hwf (by omega) w
      refine ⟨_, _, hp, mkVec_WF _ _ _ (by omega), ?_⟩
      rw [toList_mkVec, h]
  | assign i x =>
    simp only [Op.onList] at h
    split at h
    · rename_i hi
      simp only [Option.some.injEq] at h
      simp only [Op.onVector, assignIndex_of_WF hwf i x (by omega)]
      refine ⟨_, _, rfl, mkVec_WF _ _ _ (by simp; omega), ?_⟩
      rw [toList_mkVec, h]
    · exact absurd h (by simp)

/-! ## Refinement of the reference dynamic array (claim C4) -/

/-- Claim C4. For an element type whose copies never throw and are exact, and
every run of `PushBack(x)`, `PopBack()` and `v[i] = x` in which `PopBack` meets
a non-empty vector and `v[i] = x` an index `i < size`: started on a well-formed
vector and on the list of its elements, the run on the vector returns normally
at every step, and after every step `Size()`, `Empty()`, `Back()` and `v[i]`
for all `i < Size()` are what they are on the reference list. -/
theorem C4_refines_reference_array (ops : ElemOps T W E) (hok : ops.CopyOk) (os : List (Op T)) :
    ∀ (v : Vector T) (w : World W), v.WF → validRun os v.toList = true →
      runVector ops os v w = runList os v.toList ∧
        (runVector ops os v w).length = os.length := by
  induction os with
  | nil => intro v w _ _; exact ⟨rfl, rfl⟩
  | cons o os ih =>
    intro v w hwf hv
    simp only [validRun] at hv
    rcases hl : o.onList v.toList with _ | l
    · rw [hl] at hv; exact absurd hv (by simp)
    · rw [hl] at hv
      obtain ⟨v', w', hs, hwf', ht⟩ := step_refines ops hok hwf o w hl
      have := ih v' w' hwf' (by rw [ht]; exact hv)
      simp only [runVector, runList, hs, hl, observe_of_WF hwf', ht, List.length_cons]
      rw [ht] at this
      exact ⟨by rw [this.1], by rw [this.2]⟩

theorem intOps_CopyOk : intOps.CopyOk := fun _ _ => rfl

/-- Claim C4 at a small version of the test "Random operations": the vector
`Vector<int>(3, 1337)` against three copies of `1337`, under an append, an
index assignment, two removals and another append. -/
theorem C4_refines_reference_array_witness :
    (Vector.create intOps 3 1337 ⟨(), 0, []⟩).2.1.toList = List.replicate 3 1337 ∧
      runVector intOps
        [Op.pushBack 0, Op.assign 1 228, Op.popBack, Op.popBack, Op.pushBack 4]
        (Vector.create intOps 3 1337 ⟨(), 0, []⟩).2.1 ⟨(), 1, []⟩
      = runList [Op.pushBack 0, Op.assign 1 228, Op.popBack, Op.popBack, Op.pushBack 4]
        (List.replicate 3 1337) ∧
      (runVector intOps
        [Op.pushBack 0, Op.assign 1 228, Op.popBack, Op.popBack, Op.pushBack 4]
        (Vector.create intOps 3 1337 ⟨(), 0, []⟩).2.1 ⟨(), 1, []⟩).length = 5 :=
  have hv : (Vector.create intOps 3 1337 ⟨(), 0, []⟩).2.1 = mkVec 0 [1337, 1337, 1337] 0 := by
    decide
  have hwf : (Vector.create intOps 3 1337 ⟨(), 0, []⟩).2.1.WF :=
    hv ▸ mkVec_WF 0 [1337, 1337, 1337] 0 (by decide)
  have h := C4_refines_reference_array intOps intOps_CopyOk
    [Op.pushBack 0, Op.assign 1 228, Op.popBack, Op.popBack, Op.pushBack 4]
    (Vector.create intOps 3 1337 ⟨(), 0, []⟩).2.1 ⟨(), 1, []⟩ hwf (by decide)
  ⟨by decide, h.1, h.2⟩

/-! ## Capacity (claims C6, C7; `Reserve` over `ℕ`) -/

theorem copySeq_none_len_size (ops : ElemOps T W E) {v : Vector T} (hwf : v.WF) {env0 : W}
    {ys : List T} {env : W} (hc : copySeq ops v.toList env0 = (ys, none, env)) :
    ys.length = v.size_ := by
  have := copySeq_none_length ops v.toList env0 (by rw [hc])
  rw [hc, WF_size hwf] at this
  exact this

/-- With sizes computed in `ℕ`: a `Reserve(n)` that returns normally on a
well-formed vector of an element type with exact copies leaves the size and
the elements as they were (and the vector well-formed); the capacity `c` stays
`c` when `n <= c`, becomes `n` when `n > 2*c`, and `max(n, 2*c)` when
`c < n <= 2*c`. -/
theorem Reserve_floor (ops : ElemOps T W E) (hex : ops.CopyExact) (v : Vector T) (hwf : v.WF)
    (n : Nat) (w : World W) (hok : (v.Reserve ops n w).1 = Res.ok ()) :
    (v.Reserve ops n w).2.1.WF ∧
      (v.Reserve ops n w).2.1.Size = v.Size ∧
      (v.Reserve ops n w).2.1.toList = v.toList ∧
      (n ≤ v.Capacity → (v.Reserve ops n w).2.1.Capacity = v.Capacity) ∧
      (2 * v.Capacity < n → (v.Reserve ops n w).2.1.Capacity = n) ∧
      (v.Capacity < n → n ≤ 2 * v.Capacity →
        (v.Reserve ops n w).2.1.Capacity = max n (2 * v.Capacity)) := by
  simp only [Vector.Size, Vector.Capacity]
  by_cases h : n ≤ v.cap_
  · rw [Reserve_noop ops v n w h]
    exact ⟨hwf, rfl, rfl, fun _ => rfl, fun h2 => by omega, fun h2 => by omega⟩
  · have h' := Nat.not_le.mp h
    have hsc := hwf.1
    rcases hc : copySeq ops v.toList w.env with ⟨ys, r, env⟩
    cases r with
    | some e =>
      rw [Reserve_throw ops hwf n h' w hc] at hok
      exact absurd hok (by simp)
    | none =>
      have hys : ys = v.toList := by
        have := copySeq_exact_none ops hex v.toList w.env (by rw [hc])
        rw [hc] at this
        exact this
      have hlen := copySeq_none_len_size ops hwf hc
      rw [Reserve_ok ops hwf n h' w hc]
      refine ⟨mkVec_WF _ _ _ (by omega), ?_, ?_, ?_, ?_, ?_⟩
      · simp only [mkVec, hlen]
      · rw [toList_mkVec, hys]
      · intro h2; omega
      · intro h2; simp only [mkVec, hlen]; omega
      · intro _ h2; simp only [mkVec, hlen]; omega

/-- The vector after a `PushBack` that returned normally. -/
theorem PushBack_ok_form (ops : ElemOps T W E) {v : Vector T} (hwf : v.WF) (x : T)
    (w : World W) (hok : (v.PushBack ops x w).1 = Res.ok ()) :
    ∃ id ys y, (v.PushBack ops x w).2.1 =
        mkVec id (ys ++ [y])
          ((if v.size_ = v.cap_ then (if v.cap_ ≠ 0 then v.cap_ * 2 else 1) else v.cap_)
            - (v.size_ + 1)) ∧
      ys.length = v.size_ ∧ (ops.CopyExact → ys = v.toList ∧ y = x) := by
  by_cases h : v.size_ = v.cap_
  · rcases hc : copySeq ops v.toList w.env with ⟨ys, r, env⟩
    cases r with
    | some e =>
      rw [PushBack_grow_throw_copy ops hwf x h w hc] at hok
      exact absurd hok (by simp)
    | none =>
      rcases hx : ops.copy x env with ⟨rx, env2⟩
      cases rx with
      | error e =>
        rw [PushBack_grow_throw_new ops hwf x h w hc hx] at hok
        exact absurd hok (by simp)
      | ok y =>
        rw [PushBack_grow_ok ops hwf x h w hc hx, if_pos h]
        refine ⟨_, ys, y, rfl, copySeq_none_len_size ops hwf hc, fun hex => ⟨?_, ?_⟩⟩
        · have := copySeq_exact_none ops hex v.toList w.env (by rw [hc])
          rw [hc] at this
          exact this
        · exact hex x env y (by rw [hx])
  · rw [PushBack_inplace ops hwf x h w] at hok ⊢
    rcases hx : ops.copy x w.env with ⟨rx, env2⟩
    rw [hx] at hok
    cases rx with
    | error e => exact absurd hok (by simp)
    | ok y =>
      rw [if_neg h]
      exact ⟨_, v.toList, y, rfl, WF_size hwf, fun hex => ⟨rfl, hex x w.env y (by rw [hx])⟩⟩

/-- Claim C6. A call `PushBack(x)` that returns normally on a well-formed
vector never lowers the capacity; the capacity changes if and only if
`size == capacity` held before the call, and then the new capacity is
`max(size + 1, 2 * capacity)`: `1` when the old capacity is `0`, otherwise
double the old capacity. -/
theorem C6_PushBack_capacity (ops : ElemOps T W E) (v : Vector T) (hwf : v.WF) (x : T)
    (w : World W) (hok : (v.PushBack ops x w).1 = Res.ok ()) :
    v.Capacity ≤ (v.PushBack ops x w).2.1.Capacity ∧
      ((v.PushBack ops x w).2.1.Capacity ≠ v.Capacity ↔ v.Size = v.Capacity) ∧
      (v.Size = v.Capacity →
        (v.PushBack ops x w).2.1.Capacity = max (v.Size + 1) (2 * v.Capacity) ∧
        (v.Capacity = 0 → (v.PushBack ops x w).2.1.Capacity = 1) ∧
        (v.Capacity ≠ 0 → (v.PushBack ops x w).2.1.Capacity = 2 * v.Capacity)) := by
  obtain ⟨id, ys, y, hv, hlen, _⟩ := PushBack_ok_form ops hwf x w hok
  have hsc := hwf.1
  rw [hv]
  simp only [Vector.Capacity, Vector.Size, mkVec, List.length_append, List.length_singleton,
    hlen]
  by_cases h : v.size_ = v.cap_
  · rw [if_pos h]
    by_cases h0 : v.cap_ = 0
    · have hs0 : v.size_ = 0 := by omega
      rw [if_neg (by simp [h0]), h0, hs0]
      simp
    · rw [if_pos h0]
      refine ⟨by omega, ⟨fun _ => h, fun _ => by omega⟩, fun _ => ⟨by omega, fun h1 => absurd h1 h0,
        fun _ => by omega⟩⟩
  · rw [if_neg h]
    refine ⟨by omega, ⟨fun h1 => absurd (by omega) h1, fun h1 => absurd h1 h⟩,
      fun h1 => absurd h1 h⟩

/-- Claim C6 at the first two appends of the test "Capacity": the capacity goes
from `0` to `1`, then from `1` to `2`. -/
theorem C6_PushBack_capacity_witness :
    ((Vector.empty : Vector Int).PushBack intOps 1 ⟨(), 0, []⟩).2.1.Capacity = 1 ∧
      ((mkVec 0 [(1 : Int)] 0).PushBack intOps 0 ⟨(), 1, []⟩).2.1.Capacity = 2 :=
  have h0 := C6_PushBack_capacity intOps (Vector.empty : Vector Int) empty_WF 1 ⟨(), 0, []⟩
    (by decide)
  have h1 := C6_PushBack_capacity intOps (mkVec 0 [(1 : Int)] 0) (mkVec_WF 0 [1] 0 (by decide))
    0 ⟨(), 1, []⟩ (by decide)
  ⟨(h0.2.2 (by decide)).2.1 (by decide), (h1.2.2 (by decide)).2.2 (by decide)⟩

/-- Claim C7. On a well-formed vector with elements `xs`, size `s` and capacity
`c`: `Resize(n, val)` with `n <= s` always returns normally and leaves the
first `n` elements of `xs`, with capacity `c`; `Resize(n, val)` with `n > s`,
for an element type with exact copies, when it returns normally leaves `xs`
followed by `n - s` copies of `val`, with capacity `c` when `n <= c` and
`max(n, 2*c)` when `n > c`. The result is well-formed and has size `n`. -/
theorem C7_Resize_postcondition (ops : ElemOps T W E) (v : Vector T) (hwf : v.WF) (n : Nat)
    (val : T) (w : World W) :
    (n ≤ v.Size →
      (v.Resize ops n val w).1 = Res.ok () ∧
        (v.Resize ops n val w).2.1.toList = v.toList.take n ∧
        (v.Resize ops n val w).2.1.Capacity = v.Capacity ∧
        (v.Resize ops n val w).2.1.Size = n ∧ (v.Resize ops n val w).2.1.WF) ∧
      (v.Size < n → ops.CopyExact → (v.Resize ops n val w).1 = Res.ok () →
        (v.Resize ops n val w).2.1.toList = v.toList ++ List.replicate (n - v.Size) val ∧
        (n ≤ v.Capacity → (v.Resize ops n val w).2.1.Capacity = v.Capacity) ∧
        (v.Capacity < n → (v.Resize ops n val w).2.1.Capacity = max n (2 * v.Capacity)) ∧
        (v.Resize ops n val w).2.1.Size = n ∧ (v.Resize ops n val w).2.1.WF) := by
  simp only [Vector.Size, Vector.Capacity]
  have hsc := hwf.1
  have hlen := WF_size hwf
  constructor
  · intro hn
    rcases WF_cases hwf with h0 | ⟨id, extra, hpos, h0⟩
    · subst h0
      have hn0 : n = 0 := by simpa [Vector.empty] using hn
      subst hn0
      have := Resize_same ops (Vector.empty : Vector T) val w
      simp only [Vector.empty] at this ⊢
      rw [this]
      exact ⟨rfl, by simp [Vector.toList], rfl, rfl, empty_WF⟩
    · generalize v.toList = xs at h0 hlen hpos
      subst h0
      simp only [mkVec] at hn
      obtain ⟨keep, rd, rfl, rfl⟩ : ∃ keep rd, xs = keep ++ rd.reverse ∧ n = keep.length :=
        ⟨xs.take n, (xs.drop n).reverse, by simp, by simp; omega⟩
      rw [Resize_shrink]
      refine ⟨rfl, ?_, ?_, rfl, mkVec_WF _ _ _ (by simp at hpos; omega)⟩
      · rw [toList_mkVec, List.take_left' rfl]
      · simp only [mkVec, List.length_append, List.length_reverse]
        omega
  · intro hn hex hok
    by_cases h : n ≤ v.cap_
    · rcases hc : copySeq ops (List.replicate (n - v.size_) val) w.env with ⟨ys, r, env⟩
      cases r with
      | some e =>
        rw [Resize_inplace_throw ops hwf n val hn h w hc] at hok
        exact absurd hok (by simp)
      | none =>
        have hys := copySeq_exact_none ops hex (List.replicate (n - v.size_) val) w.env
          (by rw [hc])
        rw [hc] at hys
        simp only at hys
        subst hys
        rw [Resize_inplace_ok ops hwf n val hn h w hc]
        refine ⟨toList_mkVec _ _ _, ?_, fun h2 => by omega, ?_, mkVec_WF _ _ _ ?_⟩
        · intro _
          simp only [mkVec, List.length_append, List.length_replicate, hlen]
          omega
        · simp only [mkVec, List.length_append, List.length_replicate, hlen]
          omega
        · simp only [List.length_append, List.length_replicate, hlen]
          omega
    · have h' := Nat.not_le.mp h
      rcases hc : copySeq ops (v.toList ++ List.replicate (n - v.size_) val) w.env
        with ⟨ys, r, env⟩
      cases r with
      | some e =>
        rw [Resize_grow_throw ops hwf n val h' w hc] at hok
        exact absurd hok (by simp)
      | none =>
        have hys := copySeq_exact_none ops hex (v.toList ++ List.replicate (n - v.size_) val)
          w.env (by rw [hc])
        rw [hc] at hys
        simp only at hys
        subst hys
        rw [Resize_grow_ok ops hwf n val h' w hc]
        refine ⟨toList_mkVec _ _ _, fun h2 => by omega, ?_, ?_, mkVec_WF _ _ _ ?_⟩
        · intro _
          simp only [mkVec, List.length_append, List.length_replicate, hlen]
          omega
        · simp only [mkVec, List.length_append, List.length_replicate, hlen]
          omega
        · simp only [List.length_append, List.length_replicate, hlen]
          omega

/-- Claim C7 at the test "Resize": `{1, 2}` (capacity `2`) resized to `5` holds
`1, 2, 0, 0, 0` with capacity `5 = max(5, 4)`, and resized back to `1` holds
`1`, still with capacity `5`. -/
theorem C7_Resize_postcondition_witness :
    (((mkVec 0 [(1 : Int), 2] 0).Resize intOps 5 0 ⟨(), 1, []⟩).2.1.toList = [1, 2, 0, 0, 0] ∧
      ((mkVec 0 [(1 : Int), 2] 0).Resize intOps 5 0 ⟨(), 1, []⟩).2.1.Capacity = 5) ∧
      (((mkVec 1 [(1 : Int), 2, 0, 0, 0] 0).Resize intOps 1 0 ⟨(), 2, []⟩).1 = Res.ok () ∧
        ((mkVec 1 [(1 : Int), 2, 0, 0, 0] 0).Resize intOps 1 0 ⟨(), 2, []⟩).2.1.toList = [1] ∧
        ((mkVec 1 [(1 : Int), 2, 0, 0, 0] 0).Resize intOps 1 0 ⟨(), 2, []⟩).2.1.Capacity = 5) :=
  have h1 := (C7_Resize_postcondition intOps (mkVec 0 [(1 : Int), 2] 0)
    (mkVec_WF 0 [1, 2] 0 (by decide)) 5 0 ⟨(), 1, []⟩).2 (by decide)
    (CopyExact_of_CopyOk intOps_CopyOk) (by decide)
  have h2 := (C7_Resize_postcondition intOps (mkVec 1 [(1 : Int), 2, 0, 0, 0] 0)
    (mkVec_WF 1 [1, 2, 0, 0, 0] 0 (by decide)) 1 0 ⟨(), 2, []⟩).1 (by decide)
  ⟨⟨h1.1.trans (by decide), (h1.2.2.1 (by decide)).trans (by decide)⟩,
    ⟨h2.1, h2.2.1.trans (by decide), h2.2.2.1.trans (by decide)⟩⟩

/-! ## Equality (claim C8) -/

theorem index_of_WF {v : Vector T} (hwf : v.WF) (i : Nat) : v.index i = v.toList[i]? := by
  have hlen := WF_size hwf
  by_cases h : i < v.size_
  · rw [Vector.index, if_pos h, readSlot_of_WF hwf i (by omega),
      List.getElem?_eq_getElem (by omega)]
  · rw [Vector.index, if_neg h, List.getElem?_eq_none (by omega)]

theorem eqLoop_lists (ops : ElemOps T W E) (p q : Ptr T) (xs ys : List T)
    (hp : ∀ i (h : i < xs.length), readSlot p i = some xs[i])
    (hq : ∀ i (h : i < ys.length), readSlot q i = some ys[i])
    (hlen : xs.length = ys.length) :
    ∀ k i, i + k = xs.length →
      ∃ r, eqLoop ops p q k i = some r ∧
        (r = true ↔ ∀ j (h1 : j < xs.length) (h2 : j < ys.length), i ≤ j →
          ops.ne xs[j] ys[j] = false) := by
  intro k
  induction k with
  | zero =>
    intro i hi
    exact ⟨true, rfl, by simp only [true_iff]; intro j h1 _ h3; omega⟩
  | succ k ih =>
    intro i hi
    have h1 : i < xs.length := by omega
    have h2 : i < ys.length := by omega
    simp only [eqLoop, hp i h1, hq i h2]
    by_cases hne : ops.ne xs[i] ys[i] = true
    · rw [if_pos hne]
      refine ⟨false, rfl, ?_⟩
      simp only [Bool.false_eq_true, false_iff, not_forall]
      exact ⟨i, h1, h2, Nat.le_refl _, by simp [hne]⟩
    · rw [if_neg hne]
      obtain ⟨r, hr, hiff⟩ := ih (i + 1) (by omega)
      refine ⟨r, hr, hiff.trans ⟨?_, ?_⟩⟩
      · intro h j hj1 hj2 hij
        by_cases hji : j = i
        · subst hji; simpa using hne
        · exact h j hj1 hj2 (by omega)
      · intro h j hj1 hj2 hij
        exact h j hj1 hj2 (by omega)

/-- On well-formed vectors `operator==` is decided by the two lists of elements. -/
theorem opEq_spec (ops : ElemOps T W E) {a b : Vector T} (ha : a.WF) (hb : b.WF) :
    ∃ r, a.opEq ops b = some r ∧
      (r = true ↔ a.toList.length = b.toList.length ∧
        ∀ j (h1 : j < a.toList.length) (h2 : j < b.toList.length),
          ops.ne a.toList[j] b.toList[j] = false) := by
  have hla := WF_size ha
  have hlb := WF_size hb
  by_cases h : a.size_ = b.size_
  · simp only [Vector.opEq, h, ne_eq, not_true_eq_false, if_false, Nat.sub_zero]
    obtain ⟨r, hr, hiff⟩ := eqLoop_lists ops a.data_ b.data_ a.toList b.toList
      (readSlot_of_WF ha) (readSlot_of_WF hb) (by omega) b.size_ 0 (by omega)
    refine ⟨r, hr, hiff.trans ⟨fun h1 => ⟨by omega, fun j h2 h3 => h1 j h2 h3 (Nat.zero_le _)⟩,
      fun h1 j h2 h3 _ => h1.2 j h2 h3⟩⟩
  · simp only [Vector.opEq, ne_eq, h, not_false_eq_true, if_true]
    exact ⟨false, rfl, by simp only [Bool.false_eq_true, false_iff, not_and]; intro h1; omega⟩

/-- The outcome of `operator==` depends on the elements only. -/
theorem opEq_congr (ops : ElemOps T W E) {a b a' b' : Vector T} (ha : a.WF) (hb : b.WF)
    (ha' : a'.WF) (hb' : b'.WF) (hab : a'.toList = a.toList) (hbb : b'.toList = b.toList) :
    a'.opEq ops b' = a.opEq ops b := by
  obtain ⟨r, hr, hiff⟩ := opEq_spec ops ha hb
  obtain ⟨r', hr', hiff'⟩ := opEq_spec ops ha' hb'
  rw [hr, hr']
  congr 1
  rw [Bool.eq_iff_iff, hiff, hiff']
  constructor
  · rintro ⟨h1, h2⟩
    refine ⟨by rw [← hab, ← hbb]; exact h1, fun j hj1 hj2 => ?_⟩
    have := h2 j (by rw [hab]; exact hj1) (by rw [hbb]; exact hj2)
    simpa only [hab, hbb] using this
  · rintro ⟨h1, h2⟩
    refine ⟨by rw [hab, hbb]; exact h1, fun j hj1 hj2 => ?_⟩
    have := h2 j (by rw [← hab]; exact hj1) (by rw [← hbb]; exact hj2)
    simpa only [hab, hbb] using this

/-- A `Reserve` that returns normally, with exact copies, keeps the vector
well-formed and its elements. -/
theorem Reserve_preserves (ops : ElemOps T W E) (hex : ops.CopyExact) {v : Vector T}
    (hwf : v.WF) (n : Nat) (w : World W) (hok : (v.Reserve ops n w).1 = Res.ok ()) :
    (v.Reserve ops n w).2.1.WF ∧ (v.Reserve ops n w).2.1.toList = v.toList := by
  by_cases h : n ≤ v.cap_
  · rw [Reserve_noop ops v n w h]
    exact ⟨hwf, rfl⟩
  · have h' := Nat.not_le.mp h
    have hsc := hwf.1
    rcases hc : copySeq ops v.toList w.env with ⟨ys, r, env⟩
    cases r with
    | some e =>
      rw [Reserve_throw ops hwf n h' w hc] at hok
      exact absurd hok (by simp)
    | none =>
      have hys : ys = v.toList := by
        have := copySeq_exact_none ops hex v.toList w.env (by rw [hc])
        rw [hc] at this
        exact this
      rw [Reserve_ok ops hwf n h' w hc]
      exact ⟨mkVec_WF _ _ _ (by omega), by rw [toList_mkVec, hys]⟩

/-- Claim C8. On well-formed vectors `operator==` returns a value, and it is
`true` if and only if the sizes are equal and for every `i < size` the
elements `i` of the two are not `!=`. The value depends on the sizes and
elements only, not on the capacities: it is the same for any two vectors that
hold the same elements, and a `Reserve` on either operand (with exact copies)
does not change it. -/
theorem C8_equality (ops : ElemOps T W E) (a b : Vector T) (ha : a.WF) (hb : b.WF) :
    (∃ r, a.opEq ops b = some r ∧
      (r = true ↔ a.Size = b.Size ∧
        ∀ i, i < a.Size → ∃ x y, a.index i = some x ∧ b.index i = some y ∧ ops.ne x y = false)) ∧
      (∀ a' b' : Vector T, a'.WF → b'.WF → a'.toList = a.toList → b'.toList = b.toList →
        a'.opEq ops b' = a.opEq ops b) ∧
      (∀ n w, ops.CopyExact → (a.Reserve ops n w).1 = Res.ok () →
        (a.Reserve ops n w).2.1.opEq ops b = a.opEq ops b ∧
        b.opEq ops (a.Reserve ops n w).2.1 = b.opEq ops a) := by
  have hla := WF_size ha
  have hlb := WF_size hb
  refine ⟨?_, fun a' b' ha' hb' h1 h2 => opEq_congr ops ha hb ha' hb' h1 h2, ?_⟩
  · obtain ⟨r, hr, hiff⟩ := opEq_spec ops ha hb
    refine ⟨r, hr, hiff.trans ?_⟩
    simp only [Vector.Size, index_of_WF ha, index_of_WF hb, ← hla, ← hlb]
    constructor
    · rintro ⟨h1, h2⟩
      refine ⟨h1, fun i hi => ?_⟩
      have hi2 : i < b.toList.length := by omega
      exact ⟨a.toList[i], b.toList[i], List.getElem?_eq_getElem hi,
        List.getElem?_eq_getElem hi2, h2 i hi hi2⟩
    · rintro ⟨h1, h2⟩
      refine ⟨h1, fun j hj1 hj2 => ?_⟩
      obtain ⟨x, y, hx, hy, hxy⟩ := h2 j hj1
      rw [List.getElem?_eq_getElem hj1] at hx
      rw [List.getElem?_eq_getElem hj2] at hy
      injection hx with hx
      injection hy with hy
      rw [hx, hy]
      exact hxy
  · intro n w hex hok
    obtain ⟨hwf', ht⟩ := Reserve_preserves ops hex ha n w hok
    exact ⟨opEq_congr ops ha hb hwf' hb ht rfl, opEq_congr ops hb ha hb hwf' rfl ht⟩

set_option maxRecDepth 1000000 in
/-- Claim C8 at the test "Equal": `{1, 2, 3, 4}` with capacity `6` equals
`{1, 2, 3, 4}` with capacity `4`, also after `Reserve(228)` on the first, and
differs from `{1, 2, 3, 5}`. -/
theorem C8_equality_witness :
    (mkVec 0 [(1 : Int), 2, 3, 4] 2).opEq intOps (mkVec 1 [1, 2, 3, 4] 0) = some true ∧
      (((mkVec 0 [(1 : Int), 2, 3, 4] 2).Reserve intOps 228 ⟨(), 2, []⟩).2.1.Capacity = 228 ∧
        ((mkVec 0 [(1 : Int), 2, 3, 4] 2).Reserve intOps 228 ⟨(), 2, []⟩).2.1.opEq intOps
          (mkVec 1 [1, 2, 3, 4] 0) = some true) ∧
      (mkVec 0 [(1 : Int), 2, 3, 4] 2).opEq intOps (mkVec 1 [1, 2, 3, 5] 0) = some false :=
  have ha : (mkVec 0 [(1 : Int), 2, 3, 4] 2).WF := mkVec_WF 0 [1, 2, 3, 4] 2 (by decide)
  have hb : (mkVec 1 [(1 : Int), 2, 3, 4] 0).WF := mkVec_WF 1 [1, 2, 3, 4] 0 (by decide)
  have h := C8_equality intOps (mkVec 0 [(1 : Int), 2, 3, 4] 2) (mkVec 1 [1, 2, 3, 4] 0) ha hb
  ⟨by decide,
    ⟨by decide,
      ((h.2.2 228 ⟨(), 2, []⟩ (CopyExact_of_CopyOk intOps_CopyOk) (by decide)).1).trans
        (by decide)⟩,
    by decide⟩

/-! ## Construction (claim C9; `Vector(n, val)` over `ℕ`) -/

theorem Reserve_empty (ops : ElemOps T W E) (n : Nat) (w : World W) :
    ∃ v w', (Vector.empty : Vector T).Reserve ops n w = (Res.ok (), v, w') ∧ v.WF ∧
      v.toList = [] ∧ v.cap_ = n := by
  by_cases h : n ≤ 0
  · have hn : n = 0 := by omega
    subst hn
    exact ⟨_, _, Reserve_noop ops Vector.empty 0 w (Nat.le_refl _), empty_WF, rfl, rfl⟩
  · have hc : copySeq ops (Vector.empty : Vector T).toList w.env = ([], none, w.env) := rfl
    have := Reserve_ok ops (empty_WF : (Vector.empty : Vector T).WF) n
      (by simp only [Vector.empty]; omega) w hc
    refine ⟨_, _, this, mkVec_WF _ _ _ ?_, toList_mkVec _ _ _, ?_⟩
    · simp only [Vector.empty, List.length_nil]; omega
    · simp only [mkVec, Vector.empty, List.length_nil]; omega

theorem pushLoop_of_CopyOk (ops : ElemOps T W E) (hok : ops.CopyOk) (val : T) (k : Nat) :
    ∀ (j : Nat) (v : Vector T) (w : World W), v.WF →
      ∃ v' w', forLoop (fun _ (s : Vector T × World W) => Vector.PushBack ops s.1 val s.2) k j
          (v, w) = (Res.ok (), j + k, v', w') ∧ v'.WF ∧
        v'.toList = v.toList ++ List.replicate k val := by
  induction k with
  | zero => intro j v w hwf; exact ⟨v, w, rfl, hwf, by simp⟩
  | succ k ih =>
    intro j v w hwf
    obtain ⟨id, w1, hp⟩ := PushBack_of_CopyOk ops hok hwf val w
    generalize (if v.size_ = v.cap_ then (if v.cap_ ≠ 0 then v.cap_ * 2 else 1) else v.cap_)
      - (v.size_ + 1) = extra at hp
    obtain ⟨v', w', h, hwf', ht⟩ :=
      ih (j + 1) _ w1 (mkVec_WF id (v.toList ++ [val]) extra (by simp))
    refine ⟨v', w', ?_, hwf', ?_⟩
    · simp only [forLoop, hp, h]
      rw [show j + (k + 1) = j + 1 + k by omega]
    · rw [ht, toList_mkVec, List.replicate_succ]; simp

/-- With sizes computed in `ℕ`: for an element type whose copies never throw and
are exact, `Vector(n, val)` returns normally with a well-formed vector of size
`n` whose elements at every index `i < n` are `val` and whose capacity is at
least `n`. -/
theorem create_of_CopyOk (ops : ElemOps T W E) (hok : ops.CopyOk) (n : Nat) (val : T)
    (w : World W) :
    (∃ v w', Vector.create ops n val w = (Res.ok (), v, w') ∧ v.WF ∧ v.Size = n ∧
      (∀ i, i < n → v.index i = some val) ∧ v.toList = List.replicate n val ∧
      n ≤ v.Capacity) ∧
      (Vector.empty : Vector T).Size = 0 ∧ (Vector.empty : Vector T).Capacity = 0 ∧
      (Vector.empty : Vector T).data_ = none := by
  refine ⟨?_, rfl, rfl, rfl⟩
  obtain ⟨v1, w1, h1, hwf1, ht1, _⟩ := Reserve_empty (T := T) ops n w
  obtain ⟨v2, w2, h2, hwf2, ht2⟩ := pushLoop_of_CopyOk ops hok val n 0 v1 w1 hwf1
  have hlen := WF_size hwf2
  have ht : v2.toList = List.replicate n val := by rw [ht2, ht1]; rfl
  have hsz : v2.size_ = n := by rw [← hlen, ht, List.length_replicate]
  refine ⟨v2, w2, ?_, hwf2, hsz, ?_, ht, ?_⟩
  · simp only [Vector.create, h1, pushRepeat, forRange, Nat.sub_zero, h2]
  · intro i hi
    rw [index_of_WF hwf2, ht, List.getElem?_eq_getElem (by simpa using hi)]
    simp
  · have := hwf2.1
    simp only [Vector.Capacity]
    omega

/-! ## Lemmas on filling a reserved vector, `Clear` and the destructor -/

theorem blockId_mkVec (id : Nat) (xs : List T) (extra : Nat) :
    (mkVec id xs extra).blockId = id := rfl

/-- The loop of `Vector(size, val)` is the loop of the range constructor over
`size` times `val`. -/
theorem forLoop_push (ops : ElemOps T W E) (val : T) (k : Nat) :
    ∀ (j : Nat) (v : Vector T) (w : World W),
      (forLoop (fun _ (s : Vector T × World W) => Vector.PushBack ops s.1 val s.2) k j
          (v, w)).1 = (pushEach ops (List.replicate k val) v w).1 ∧
        (forLoop (fun _ (s : Vector T × World W) => Vector.PushBack ops s.1 val s.2) k j
          (v, w)).2.2 = (pushEach ops (List.replicate k val) v w).2 := by
  induction k with
  | zero => intro j v w; exact ⟨rfl, rfl⟩
  | succ k ih =>
    intro j v w
    simp only [forLoop, List.replicate_succ, pushEach]
    rcases h : Vector.PushBack ops v val w with ⟨r, v', w'⟩
    cases r with
    | ok u => exact ih (j + 1) v' w'
    | throw e => exact ⟨rfl, rfl⟩
    | ub => exact ⟨rfl, rfl⟩

/-- Appends into spare slots: the values are copied in order into the slots
after the elements, up to the first copy that throws. -/
theorem pushEach_inplace (ops : ElemOps T W E) (id : Nat) (zs : List T) :
    ∀ (xs : List T) (extra : Nat) (w : World W), zs.length ≤ extra →
      pushEach ops zs (mkVec id xs extra) w =
        (status (copySeq ops zs w.env).2.1,
          mkVec id (xs ++ (copySeq ops zs w.env).1) (extra - (copySeq ops zs w.env).1.length),
          ⟨(copySeq ops zs w.env).2.2, w.next,
            w.log ++ constructEvents id xs.length (copySeq ops zs w.env).1.length⟩) := by
  induction zs with
  | nil =>
    intro xs extra w _
    simp [pushEach, copySeq, status, constructEvents]
  | cons z zs ih =>
    intro xs extra w hle
    simp only [List.length_cons] at hle
    have hwf : (mkVec id xs extra).WF := mkVec_WF id xs extra (by omega)
    have hne : (mkVec id xs extra).size_ ≠ (mkVec id xs extra).cap_ := by
      simp only [mkVec]; omega
    simp only [pushEach, copySeq, PushBack_inplace ops hwf z hne w, toList_mkVec, blockId_mkVec]
    rcases hc : ops.copy z w.env with ⟨r, env⟩
    cases r with
    | error e =>
      simp [status, constructEvents]
    | ok y =>
      simp only
      have hcap : (mkVec id xs extra).cap_ - ((mkVec id xs extra).size_ + 1) = extra - 1 := by
        simp only [mkVec]; omega
      rw [hcap, ih (xs ++ [y]) (extra - 1) _ (by omega)]
      simp only [List.length_append, List.length_singleton, List.length_cons, List.append_assoc,
        List.singleton_append, constructEvents, List.range'_succ, List.map_cons,
        List.cons_append, List.nil_append, mkVec]
      refine Prod.ext rfl (Prod.ext ?_ ?_)
      · simp only
        congr 1
        · omega
        · rw [show extra - 1 - (copySeq ops zs env).1.length
            = extra - ((copySeq ops zs env).1.length + 1) by omega]
      · simp [mkVec]

theorem Clear_empty (ops : ElemOps T W E) (w : World W) :
    (Vector.empty : Vector T).Clear ops w = (Res.ok (), Vector.empty, w) := by
  simp [Vector.Clear, Vector.empty, destroyRange_none]

theorem Clear_mkVec (ops : ElemOps T W E) (id : Nat) (xs : List T) (extra : Nat)
    (w : World W) :
    (mkVec id xs extra).Clear ops w =
      (Res.ok (), ⟨0, xs.length + extra, some ⟨id, List.replicate (xs.length + extra) none⟩⟩,
        ⟨dtorSeq ops xs w.env, w.next, w.log ++ destroyEvents id 0 xs.length⟩) := by
  have h := destroyRange_spec ops id [] (List.replicate extra none) xs 0 xs.length rfl
    (by simp) w
  simp only [List.nil_append] at h
  simp only [Vector.Clear, mkVec, h, List.replicate_add]

theorem destructor_empty (ops : ElemOps T W E) (w : World W) :
    (Vector.empty : Vector T).destructor ops w = (Res.ok (), Vector.empty, w) := by
  simp only [Vector.destructor, Clear_empty]
  rfl

theorem destructor_mkVec (ops : ElemOps T W E) (id : Nat) (xs : List T) (extra : Nat)
    (w : World W) :
    (mkVec id xs extra).destructor ops w =
      (Res.ok (), ⟨0, xs.length + extra, some ⟨id, List.replicate (xs.length + extra) none⟩⟩,
        ⟨dtorSeq ops xs w.env, w.next,
          w.log ++ destroyEvents id 0 xs.length ++ [Event.free id]⟩) := by
  simp only [Vector.destructor, Clear_mkVec, release]

/-- The `catch` block of a constructor on a partly filled vector: the elements
are destroyed in ascending order, the block is released, `data_` is null;
`cap_` keeps its value. -/
theorem unwind_mkVec (ops : ElemOps T W E) (id : Nat) (xs : List T) (extra : Nat) (e : E)
    (w : World W) :
    unwind ops (mkVec id xs extra) e w =
      (Res.throw e, ⟨0, xs.length + extra, none⟩,
        ⟨dtorSeq ops xs w.env, w.next,
          w.log ++ destroyEvents id 0 xs.length ++ [Event.free id]⟩) := by
  simp only [unwind, Clear_mkVec, release]

theorem Reserve_empty_pos (ops : ElemOps T W E) (n : Nat) (hn : 0 < n) (w : World W) :
    (Vector.empty : Vector T).Reserve ops n w =
      (Res.ok (), mkVec w.next [] n,
        ⟨w.env, w.next + 1, w.log ++ [Event.alloc w.next n]⟩) := by
  have hc : copySeq ops (Vector.empty : Vector T).toList w.env = ([], none, w.env) := rfl
  rw [Reserve_ok ops (empty_WF : (Vector.empty : Vector T).WF) n
    (by simp only [Vector.empty]; omega) w hc]
  simp [Vector.empty, release, dtorSeq, Vector.toList, constructEvents, destroyEvents]

theorem fromRange_nil (ops : ElemOps T W E) (w : World W) :
    Vector.fromRange ops ([] : List T) w = (Res.ok (), Vector.empty, w) := by
  simp [Vector.fromRange, Reserve_noop, Vector.empty, pushEach]

theorem fromRange_throw (ops : ElemOps T W E) (xs : List T) (w : World W)
    {ys : List T} {e : E} {env : W} (hc : copySeq ops xs w.env = (ys, some e, env)) :
    Vector.fromRange ops xs w =
      (Res.throw e, ⟨0, xs.length, none⟩,
        ⟨dtorSeq ops ys env, w.next + 1,
          w.log ++ [Event.alloc w.next xs.length] ++ constructEvents w.next 0 ys.length
            ++ destroyEvents w.next 0 ys.length ++ [Event.free w.next]⟩) := by
  have hlt := copySeq_some_length ops xs w.env e (by rw [hc])
  rw [hc] at hlt
  simp only at hlt
  have hp := pushEach_inplace ops w.next xs [] xs.length
    ⟨w.env, w.next + 1, w.log ++ [Event.alloc w.next xs.length]⟩ (Nat.le_refl _)
  simp only [hc, status, List.nil_append, List.length_nil] at hp
  simp only [Vector.fromRange, Reserve_empty_pos ops xs.length (by omega) w, hp, unwind_mkVec]
  rw [show ys.length + (xs.length - ys.length) = xs.length by omega]

theorem fromRange_ok (ops : ElemOps T W E) (xs : List T) (hne : xs ≠ []) (w : World W)
    {ys : List T} {env : W} (hc : copySeq ops xs w.env = (ys, none, env)) :
    Vector.fromRange ops xs w =
      (Res.ok (), mkVec w.next ys 0,
        ⟨env, w.next + 1,
          w.log ++ [Event.alloc w.next xs.length] ++ constructEvents w.next 0 xs.length⟩) := by
  have hlen := copySeq_none_length ops xs w.env (by rw [hc])
  rw [hc] at hlen
  simp only at hlen
  have hpos : 0 < xs.length := List.length_pos.mpr hne
  have hp := pushEach_inplace ops w.next xs [] xs.length
    ⟨w.env, w.next + 1, w.log ++ [Event.alloc w.next xs.length]⟩ (Nat.le_refl _)
  simp only [hc, status, List.nil_append, List.length_nil, hlen, Nat.sub_self] at hp
  simp only [Vector.fromRange, Reserve_empty_pos ops xs.length hpos w, hp]

/-- The constructor `Vector(size, val)` does what the range constructor does on
`size` times `val`. -/
theorem create_eq_fromRange (ops : ElemOps T W E) (n : Nat) (val : T) (w : World W) :
    Vector.create ops n val w = Vector.fromRange ops (List.replicate n val) w := by
  simp only [Vector.create, Vector.fromRange, List.length_replicate]
  rcases Vector.Reserve ops (Vector.empty : Vector T) n w with ⟨r, v1, w1⟩
  cases r with
  | throw e => rfl
  | ub => rfl
  | ok u =>
    simp only [pushRepeat, forRange, Nat.sub_zero]
    have h := forLoop_push ops val n 0 v1 w1
    rcases hf : forLoop (fun _ (s : Vector T × World W) => Vector.PushBack ops s.1 val s.2)
      n 0 (v1, w1) with ⟨r2, j, v2, w2⟩
    rcases hp : pushEach ops (List.replicate n val) v1 w1 with ⟨r3, v3, w3⟩
    rw [hf, hp] at h
    simp only [Prod.mk.injEq] at h
    obtain ⟨rfl, rfl, rfl⟩ := h
    cases r2 <;> rfl

/-! ## Constructors that fail (claim C11) -/

/-- Claim C12. On a well-formed vector `At(i)` throws if and only if
`i >= size`, and what it throws is `out_of_range` with the text of `i`; for
`i < size` it returns element `i`, the one `operator[]` gives; in both cases
the vector after the call is the vector before it. -/
theorem C12_At_bounds_checked (v : Vector T) (hwf : v.WF) (i : Nat) :
    ((∃ e, (v.At i).1 = Res.throw e) ↔ v.Size ≤ i) ∧
      (v.Size ≤ i → (v.At i).1 = Res.throw { arg := i }) ∧
      (i < v.Size → ∃ x, v.toList[i]? = some x ∧ v.index i = some x ∧ (v.At i).1 = Res.ok x) ∧
      (v.At i).2 = v := by
  have hlen := WF_size hwf
  simp only [Vector.Size]
  by_cases h : v.size_ ≤ i
  · have hat : v.At i = (Res.throw { arg := i }, v) := by
      simp only [Vector.At, ge_iff_le, if_pos h]
    rw [hat]
    exact ⟨⟨fun _ => h, fun _ => ⟨_, rfl⟩⟩, fun _ => rfl, fun h2 => absurd h2 (by omega), rfl⟩
  · have hi : i < v.toList.length := by omega
    have hat : v.At i = (Res.ok v.toList[i], v) := by
      simp only [Vector.At, ge_iff_le, if_neg h, readSlot_of_WF hwf i hi]
    rw [hat]
    refine ⟨⟨fun ⟨e, he⟩ => absurd he (by simp), fun h2 => absurd h2 h⟩,
      fun h2 => absurd h2 h, fun _ => ⟨v.toList[i], List.getElem?_eq_getElem hi, ?_, rfl⟩, rfl⟩
    rw [index_of_WF hwf, List.getElem?_eq_getElem hi]

/-- Claim C12 at a vector of two elements with one spare slot: index `1` is
read, indices `2` (the spare slot) and `7` throw. -/
theorem C12_At_bounds_checked_witness :
    ((mkVec 0 [(7 : Int), 8] 1).At 1).1 = Res.ok 8 ∧
      ((mkVec 0 [(7 : Int), 8] 1).At 2).1 = Res.throw { arg := 2 } ∧
      ((mkVec 0 [(7 : Int), 8] 1).At 7).1 = Res.throw { arg := 7 } ∧
      ((mkVec 0 [(7 : Int), 8] 1).At 7).2 = mkVec 0 [7, 8] 1 :=
  have hwf : (mkVec 0 [(7 : Int), 8] 1).WF := mkVec_WF 0 [7, 8] 1 (by decide)
  ⟨by decide, (C12_At_bounds_checked (mkVec 0 [(7 : Int), 8] 1) hwf 2).2.1 (by decide),
    (C12_At_bounds_checked (mkVec 0 [(7 : Int), 8] 1) hwf 7).2.1 (by decide),
    (C12_At_bounds_checked (mkVec 0 [(7 : Int), 8] 1) hwf 7).2.2.2⟩

/-! ## Exchange and move (claims C13, C14) -/

/-- Claim C13. `a.Swap(b)` leaves `a` with exactly the members `b` had (size,
capacity, block and so the elements) and `b` with those `a` had; the world is
untouched: no event is logged (no construction, destruction, allocation or
release) and no element operation runs; the call cannot throw. Applied twice
it restores both vectors. -/
theorem C13_Swap_exchange (a b : Vector T) (w : World W) :
    Vector.Swap a b w = ((b, a), w) ∧
      ((Vector.Swap a b w).1.1.Size = b.Size ∧ (Vector.Swap a b w).1.1.Capacity = b.Capacity ∧
        (Vector.Swap a b w).1.1.toList = b.toList) ∧
      ((Vector.Swap a b w).1.2.Size = a.Size ∧ (Vector.Swap a b w).1.2.Capacity = a.Capacity ∧
        (Vector.Swap a b w).1.2.toList = a.toList) ∧
      (Vector.Swap a b w).2.log = w.log ∧
      Vector.Swap (Vector.Swap a b w).1.1 (Vector.Swap a b w).1.2 (Vector.Swap a b w).2
        = ((a, b), w) :=
  ⟨rfl, ⟨rfl, rfl, rfl⟩, ⟨rfl, rfl, rfl⟩, rfl, rfl⟩

theorem destructor_of_WF (ops : ElemOps T W E) {v : Vector T} (hwf : v.WF) (w : World W) :
    ∃ v', v.destructor ops w =
      (Res.ok (), v',
        release v.data_ ⟨dtorSeq ops v.toList w.env, w.next,
          w.log ++ destroyEvents v.blockId 0 v.size_⟩) := by
  rcases WF_cases hwf with h0 | ⟨id, extra, _, h0⟩
  · subst h0
    refine ⟨Vector.empty, ?_⟩
    rw [destructor_empty]
    simp [Vector.empty, release, Vector.toList, dtorSeq, destroyEvents]
  · generalize v.toList = xs at h0
    subst h0
    refine ⟨⟨0, xs.length + extra, some ⟨id, List.replicate (xs.length + extra) none⟩⟩, ?_⟩
    rw [destructor_mkVec]
    simp only [mkVec, release, Vector.blockId]

theorem moveAssign_spec (ops : ElemOps T W E) {v : Vector T} (hwf : v.WF) (other : Vector T)
    (w : World W) :
    v.moveAssign ops other w =
      (Res.ok (), (other, Vector.empty),
        release v.data_ ⟨dtorSeq ops v.toList w.env, w.next,
          w.log ++ destroyEvents v.blockId 0 v.size_⟩) := by
  obtain ⟨v', hd⟩ := destructor_of_WF ops hwf w
  have hd' : Vector.destructor ops (⟨v.size_, v.cap_, v.data_⟩ : Vector T) w = _ := hd
  simp only [Vector.moveAssign, Vector.moveCtor, Vector.Swap, hd']
  rfl

/-- Claim C14. Move construction from `a` gives the new vector exactly the size,
capacity, block and elements `a` had and leaves `a` with size `0`, capacity `0`
and no storage, without any event in the world. Move assignment `b = move(a)`
between distinct objects, with `b` well-formed, returns normally, gives `b`
exactly what `a` had and leaves `a` empty; what `b` held before is destroyed
and released. -/
theorem C14_move_leaves_source_empty (ops : ElemOps T W E) (a b : Vector T) (hb : b.WF)
    (w : World W) :
    (Vector.moveCtor a w = ((a, Vector.empty), w) ∧
      (Vector.moveCtor a w).1.2.Size = 0 ∧ (Vector.moveCtor a w).1.2.Capacity = 0 ∧
      (Vector.moveCtor a w).1.2.data_ = none) ∧
    ((b.moveAssign ops a w).1 = Res.ok () ∧
      (b.moveAssign ops a w).2.1.1 = a ∧
      (b.moveAssign ops a w).2.1.2 = Vector.empty ∧
      (b.moveAssign ops a w).2.1.2.Size = 0 ∧ (b.moveAssign ops a w).2.1.2.Capacity = 0 ∧
      (b.moveAssign ops a w).2.2 =
        release b.data_ ⟨dtorSeq ops b.toList w.env, w.next,
          w.log ++ destroyEvents b.blockId 0 b.size_⟩) := by
  rw [moveAssign_spec ops hb a w]
  exact ⟨⟨rfl, rfl, rfl, rfl⟩, rfl, rfl, rfl, rfl, rfl, rfl⟩

/-- Claim C14 at the test "Move": `c` is move-constructed from `{2, 2, 8}`, and
a vector `{1}` is move-assigned from `{2, 2, 8}`: its old element is destroyed,
its old block released. -/
theorem C14_move_leaves_source_empty_witness :
    (Vector.moveCtor (mkVec 0 [(2 : Int), 2, 8] 0) (⟨(), 1, []⟩ : World Unit)).1
        = (mkVec 0 [2, 2, 8] 0, Vector.empty) ∧
      (Vector.moveAssign intOps (mkVec 1 [(1 : Int)] 0) (mkVec 0 [2, 2, 8] 0) ⟨(), 2, []⟩)
        = (Res.ok (), (mkVec 0 [2, 2, 8] 0, Vector.empty),
            ⟨(), 2, [Event.destroy 1 0, Event.free 1]⟩) :=
  have h := C14_move_leaves_source_empty intOps (mkVec 0 [(2 : Int), 2, 8] 0)
    (mkVec 1 [(1 : Int)] 0) (mkVec_WF 1 [1] 0 (by decide)) ⟨(), 2, []⟩
  ⟨congrArg Prod.fst h.1.1, by decide⟩

/-! ## Copy assignment (claim C15) and `Assign` over `ℕ` -/

theorem readRange_lists (p : Ptr T) (xs : List T)
    (hp : ∀ i (h : i < xs.length), readSlot p i = some xs[i]) :
    ∀ k i, i + k = xs.length → readRange p k i = some (xs.drop i) := by
  intro k
  induction k with
  | zero =>
    intro i hi
    rw [readRange, List.drop_of_length_le (by omega)]
  | succ k ih =>
    intro i hi
    have h1 : i < xs.length := by omega
    simp only [readRange, hp i h1, ih (i + 1) (by omega)]
    rw [List.drop_eq_getElem_cons h1]

theorem readRange_of_WF {v : Vector T} (hwf : v.WF) :
    readRange v.data_ v.size_ 0 = some v.toList := by
  have := readRange_lists v.data_ v.toList (readSlot_of_WF hwf) v.size_ 0
    (by rw [WF_size hwf]; omega)
  simpa using this

theorem copyCtor_of_WF (ops : ElemOps T W E) {other : Vector T} (hwf : other.WF)
    (w : World W) : Vector.copyCtor ops other w = Vector.fromRange ops other.toList w := by
  simp only [Vector.copyCtor, readRange_of_WF hwf]

/-- The range constructor returns normally exactly when no copy throws, and
then with a well-formed vector of the copies. -/
theorem fromRange_cases (ops : ElemOps T W E) (xs : List T) (w : World W) :
    (Vector.fromRange ops xs w).1 = status (copySeq ops xs w.env).2.1 ∧
      ((Vector.fromRange ops xs w).1 = Res.ok () →
        (Vector.fromRange ops xs w).2.1.WF ∧
        (Vector.fromRange ops xs w).2.1.toList = (copySeq ops xs w.env).1) := by
  rcases hc : copySeq ops xs w.env with ⟨ys, r, env⟩
  cases r with
  | some e =>
    rw [fromRange_throw ops xs w hc]
    exact ⟨rfl, fun h => absurd h (by simp)⟩
  | none =>
    by_cases hne : xs = []
    · subst hne
      simp only [copySeq, Prod.mk.injEq] at hc
      obtain ⟨rfl, _, _⟩ := hc
      rw [fromRange_nil]
      exact ⟨rfl, fun _ => ⟨empty_WF, rfl⟩⟩
    · have hlen := copySeq_none_length ops xs w.env (by rw [hc])
      rw [hc] at hlen
      simp only at hlen
      have hpos : 0 < xs.length := List.length_pos.mpr hne
      rw [fromRange_ok ops xs hne w hc]
      exact ⟨rfl, fun _ => ⟨mkVec_WF _ _ _ (by omega), toList_mkVec _ _ _⟩⟩

/-- The tail of copy assignment and `Assign`: after `Swap(tmp)` the object holds
what `tmp` held, and the destructor of `tmp` disposes of what the object held. -/
theorem swap_then_destroy (ops : ElemOps T W E) {v : Vector T} (hwf : v.WF) (tmp : Vector T)
    (w : World W) :
    (Vector.destructor ops (Vector.Swap v tmp w).1.2 (Vector.Swap v tmp w).2).1 = Res.ok () ∧
      (Vector.Swap v tmp w).1.1 = tmp := by
  obtain ⟨v', hd⟩ := destructor_of_WF ops hwf w
  have hd' : Vector.destructor ops (⟨v.size_, v.cap_, v.data_⟩ : Vector T) w = _ := hd
  simp only [Vector.Swap, hd']
  exact ⟨trivial, trivial⟩

theorem opEq_of_toList_eq (ops : ElemOps T W E) {a b : Vector T} (ha : a.WF) (hb : b.WF)
    (hab : a.toList = b.toList) (hrefl : ∀ x, x ∈ a.toList → ops.ne x x = false) :
    a.opEq ops b = some true := by
  obtain ⟨r, hr, hiff⟩ := opEq_spec ops ha hb
  have : r = true := by
    rw [hiff]
    refine ⟨by rw [hab], fun j h1 h2 => ?_⟩
    have hj : a.toList[j] = b.toList[j] := by simp only [hab]
    rw [← hj]
    exact hrefl _ (List.getElem_mem _)
  rw [hr, this]

theorem copyAssign_spec (ops : ElemOps T W E) {v other : Vector T} (hv : v.WF)
    (ho : other.WF) (w : World W) :
    (v.copyAssign ops other w).1 = (Vector.fromRange ops other.toList w).1 ∧
      (v.copyAssign ops other w).2.1.2 = other ∧
      ((Vector.fromRange ops other.toList w).1 = Res.ok () →
        (v.copyAssign ops other w).2.1.1 = (Vector.fromRange ops other.toList w).2.1) ∧
      ((Vector.fromRange ops other.toList w).1 ≠ Res.ok () →
        (v.copyAssign ops other w).2.1.1 = v) := by
  simp only [Vector.copyAssign, copyCtor_of_WF ops ho]
  rcases hf : Vector.fromRange ops other.toList w with ⟨r, tmp, w1⟩
  cases r with
  | ok u =>
    have hs := swap_then_destroy ops hv tmp w1
    exact ⟨hs.1, rfl, fun _ => hs.2, fun h => absurd rfl h⟩
  | throw e => simp
  | ub => simp

theorem Assign_spec (ops : ElemOps T W E) {v : Vector T} (hv : v.WF) (n : Nat) (val : T)
    (w : World W) :
    (v.Assign ops n val w).1 = (Vector.create ops n val w).1 ∧
      ((Vector.create ops n val w).1 = Res.ok () →
        (v.Assign ops n val w).2.1 = (Vector.create ops n val w).2.1) ∧
      ((Vector.create ops n val w).1 ≠ Res.ok () → (v.Assign ops n val w).2.1 = v) := by
  simp only [Vector.Assign]
  rcases hf : Vector.create ops n val w with ⟨r, tmp, w1⟩
  cases r with
  | ok u =>
    have hs := swap_then_destroy ops hv tmp w1
    exact ⟨hs.1, fun _ => hs.2, fun h => absurd rfl h⟩
  | throw e => simp
  | ub => simp

theorem status_ok_iff (r : Option E) : status r = Res.ok () ↔ r = none := by
  cases r <;> simp [status]

theorem status_throw_iff (r : Option E) (e : E) : status r = Res.throw e ↔ r = some e := by
  cases r <;> simp [status]

/-- Claim C15. Copy assignment `a = b` between distinct well-formed vectors
throws exactly when a copy of an element of `b` throws, with that very
exception, and otherwise returns normally; `b` is left as it was in both
cases; when it throws, `a` is exactly what it was (size, capacity, block,
elements); when it returns normally, `a` is well-formed and holds the copies of
the elements of `b`, which for exact copies are the elements of `b`, so that
`a == b` is `true` when no element of `b` is `!=` itself. The assignment
`a = a` returns at once with `a` as it was. -/
theorem C15_copy_assignment (ops : ElemOps T W E) (a b : Vector T) (ha : a.WF) (hb : b.WF)
    (w : World W) :
    (a.copyAssign ops b w).1 = status (copySeq ops b.toList w.env).2.1 ∧
      (a.copyAssign ops b w).2.1.2 = b ∧
      (∀ e, (a.copyAssign ops b w).1 = Res.throw e → (a.copyAssign ops b w).2.1.1 = a) ∧
      ((a.copyAssign ops b w).1 = Res.ok () →
        (a.copyAssign ops b w).2.1.1.WF ∧
        (a.copyAssign ops b w).2.1.1.toList = (copySeq ops b.toList w.env).1 ∧
        (ops.CopyExact →
          (a.copyAssign ops b w).2.1.1.toList = b.toList ∧
          (a.copyAssign ops b w).2.1.1.Size = b.Size ∧
          ((∀ x, x ∈ b.toList → ops.ne x x = false) →
            (a.copyAssign ops b w).2.1.1.opEq ops b = some true))) ∧
      (Vector.copyAssignSelf a w : Res E Unit × Vector T × World W) = (Res.ok (), a, w) := by
  obtain ⟨h1, h2, h3, h4⟩ := copyAssign_spec ops ha hb w
  obtain ⟨f1, f2⟩ := fromRange_cases ops b.toList w
  refine ⟨h1.trans f1, h2, ?_, ?_, rfl⟩
  · intro e he
    exact h4 (by rw [← h1, he]; simp)
  · intro hok
    have hfok : (Vector.fromRange ops b.toList w).1 = Res.ok () := by rw [← h1, hok]
    obtain ⟨hwf, ht⟩ := f2 hfok
    rw [h3 hfok]
    refine ⟨hwf, ht, fun hex => ?_⟩
    have hnone : (copySeq ops b.toList w.env).2.1 = none := by
      rw [← status_ok_iff, ← f1, hfok]
    have hys := copySeq_exact_none ops hex b.toList w.env hnone
    have ht' : (Vector.fromRange ops b.toList w).2.1.toList = b.toList := by rw [ht, hys]
    refine ⟨ht', ?_, fun hrefl => opEq_of_toList_eq ops hwf hb ht' (by rw [ht']; exact hrefl)⟩
    rw [Vector.Size, Vector.Size, ← WF_size hwf, ← WF_size hb, ht']

/-- Claim C15 at the test "Copy" (`c = a` with `a = {1, 2, 3}` gives `c == a`)
and at a vector of `EvilInt` one object short of the limit, where the second
copy throws and the receiver `{9}` keeps its element. -/
theorem C15_copy_assignment_witness :
    ((Vector.copyAssign intOps (mkVec 1 [(9 : Int)] 0) (mkVec 0 [1, 2, 3] 0)
        ⟨(), 2, []⟩).2.1.1.toList = [1, 2, 3] ∧
      (Vector.copyAssign intOps (mkVec 1 [(9 : Int)] 0) (mkVec 0 [1, 2, 3] 0)
        ⟨(), 2, []⟩).2.1.1.opEq intOps (mkVec 0 [1, 2, 3] 0) = some true) ∧
    ((Vector.copyAssign evilInt (mkVec 1 [(9 : Int)] 0) (mkVec 0 [1, 2, 3] 0)
        ⟨199, 2, []⟩).1 = Res.throw 1945 ∧
      (Vector.copyAssign evilInt (mkVec 1 [(9 : Int)] 0) (mkVec 0 [1, 2, 3] 0)
        ⟨199, 2, []⟩).2.1.1 = mkVec 1 [9] 0) :=
  have ha : (mkVec 1 [(9 : Int)] 0).WF := mkVec_WF 1 [9] 0 (by decide)
  have hb : (mkVec 0 [(1 : Int), 2, 3] 0).WF := mkVec_WF 0 [1, 2, 3] 0 (by decide)
  have h1 := C15_copy_assignment intOps (mkVec 1 [(9 : Int)] 0) (mkVec 0 [1, 2, 3] 0) ha hb
    ⟨(), 2, []⟩
  have h2 := C15_copy_assignment evilInt (mkVec 1 [(9 : Int)] 0) (mkVec 0 [1, 2, 3] 0) ha hb
    ⟨199, 2, []⟩
  have s1 := (h1.2.2.2.1 (h1.1.trans (by decide))).2.2 (CopyExact_of_CopyOk intOps_CopyOk)
  have t2 : (Vector.copyAssign evilInt (mkVec 1 [(9 : Int)] 0) (mkVec 0 [1, 2, 3] 0)
      ⟨199, 2, []⟩).1 = Res.throw 1945 := h2.1.trans (by decide)
  ⟨⟨s1.1.trans (by decide), s1.2.2 (by decide)⟩, ⟨t2, h2.2.2.1 1945 t2⟩⟩

/-- With sizes computed in `ℕ`: `Assign(n, val)` on a well-formed vector throws
exactly when one of the `n` copies of `val` that `Vector(n, val)` makes throws,
with that very exception, and then the vector is exactly what it was; otherwise
it returns normally and the vector is the very vector `Vector(n, val)` built:
well-formed, and for exact copies of size `n` with every element `val`, so that
it compares equal to any `Vector(n, val)` when `val` is not `!=` itself.
`Assign(0, val)` always returns normally and leaves the empty vector. -/
theorem Assign_of_WF (ops : ElemOps T W E) (v : Vector T) (hv : v.WF) (n : Nat) (val : T)
    (w : World W) :
    (v.Assign ops n val w).1 = status (copySeq ops (List.replicate n val) w.env).2.1 ∧
      (∀ e, (v.Assign ops n val w).1 = Res.throw e → (v.Assign ops n val w).2.1 = v) ∧
      ((v.Assign ops n val w).1 = Res.ok () →
        (v.Assign ops n val w).2.1 = (Vector.create ops n val w).2.1 ∧
        (v.Assign ops n val w).2.1.WF ∧
        (ops.CopyExact →
          (v.Assign ops n val w).2.1.Size = n ∧
          (v.Assign ops n val w).2.1.toList = List.replicate n val ∧
          (ops.ne val val = false →
            ∀ w2, (Vector.create ops n val w2).1 = Res.ok () →
              (v.Assign ops n val w).2.1.opEq ops (Vector.create ops n val w2).2.1
                = some true))) ∧
      (n = 0 → (v.Assign ops n val w).1 = Res.ok () ∧
        (v.Assign ops n val w).2.1 = Vector.empty ∧ (v.Assign ops n val w).2.1.Empty = true) := by
  obtain ⟨h1, h3, h4⟩ := Assign_spec ops hv n val w
  have hcr : ∀ w' : World W,
      (Vector.create ops n val w').1 = status (copySeq ops (List.replicate n val) w'.env).2.1 ∧
      ((Vector.create ops n val w').1 = Res.ok () →
        (Vector.create ops n val w').2.1.WF ∧
        (Vector.create ops n val w').2.1.toList
          = (copySeq ops (List.replicate n val) w'.env).1) := by
    intro w'
    rw [create_eq_fromRange]
    exact fromRange_cases ops (List.replicate n val) w'
  have hexact : ∀ w' : World W, ops.CopyExact → (Vector.create ops n val w').1 = Res.ok () →
      (Vector.create ops n val w').2.1.WF ∧
      (Vector.create ops n val w').2.1.toList = List.replicate n val := by
    intro w' hex hok
    obtain ⟨f1, f2⟩ := hcr w'
    obtain ⟨hwf, ht⟩ := f2 hok
    have hnone : (copySeq ops (List.replicate n val) w'.env).2.1 = none := by
      rw [← status_ok_iff, ← f1, hok]
    exact ⟨hwf, by rw [ht, copySeq_exact_none ops hex _ _ hnone]⟩
  obtain ⟨f1, f2⟩ := hcr w
  refine ⟨h1.trans f1, ?_, ?_, ?_⟩
  · intro e he
    exact h4 (by rw [← h1, he]; simp)
  · intro hok
    have hfok : (Vector.create ops n val w).1 = Res.ok () := by rw [← h1, hok]
    obtain ⟨hwf, ht⟩ := f2 hfok
    rw [h3 hfok]
    refine ⟨rfl, hwf, fun hex => ?_⟩
    obtain ⟨_, ht'⟩ := hexact w hex hfok
    refine ⟨by rw [Vector.Size, ← WF_size hwf, ht', List.length_replicate], ht', ?_⟩
    intro hrefl w2 hok2
    obtain ⟨hwf2, ht2⟩ := hexact w2 hex hok2
    refine opEq_of_toList_eq ops hwf hwf2 (by rw [ht', ht2]) ?_
    intro x hx
    rw [ht'] at hx
    rw [List.eq_of_mem_replicate hx]
    exact hrefl
  · intro hn
    subst hn
    have hc0 : Vector.create ops 0 val w = (Res.ok (), Vector.empty, w) := by
      rw [create_eq_fromRange]
      exact fromRange_nil ops w
    have hok : (Vector.create ops 0 val w).1 = Res.ok () := by rw [hc0]
    refine ⟨by rw [h1, hok], ?_, ?_⟩
    · rw [h3 hok, hc0]
    · rw [h3 hok, hc0]
      rfl

/-! ## `Clear` (claim C17) -/

/-- Claim C17. `Clear()` on a well-formed vector returns normally, leaves size
`0` and the capacity it had, and a well-formed vector without elements; a
second `Clear()` returns normally and changes neither the vector nor the
world. -/
theorem C17_Clear (ops : ElemOps T W E) (v : Vector T) (hwf : v.WF) (w : World W) :
    (v.Clear ops w).1 = Res.ok () ∧
      (v.Clear ops w).2.1.Size = 0 ∧
      (v.Clear ops w).2.1.Capacity = v.Capacity ∧
      (v.Clear ops w).2.1.WF ∧ (v.Clear ops w).2.1.toList = [] ∧
      ∀ w2 : World W,
        Vector.Clear ops (v.Clear ops w).2.1 w2 = (Res.ok (), (v.Clear ops w).2.1, w2) := by
  rcases WF_cases hwf with h0 | ⟨id, extra, hpos, h0⟩
  · subst h0
    rw [Clear_empty]
    exact ⟨rfl, rfl, rfl, empty_WF, rfl, fun w2 => Clear_empty ops w2⟩
  · generalize v.toList = xs at h0 hpos
    subst h0
    rw [Clear_mkVec]
    have hm : (⟨0, xs.length + extra, some ⟨id, List.replicate (xs.length + extra) none⟩⟩
        : Vector T) = mkVec id [] (xs.length + extra) := by
      simp [mkVec]
    refine ⟨rfl, rfl, rfl, ?_, ?_, fun w2 => ?_⟩
    · simp only [hm]
      exact mkVec_WF id [] _ (by simpa using hpos)
    · simp only [hm]
      exact toList_mkVec id [] _
    · simp only [hm]
      rw [Clear_mkVec]
      simp [mkVec, dtorSeq, destroyEvents]

/-- Claim C17 at the test "Clear": `{1, 2}` cleared twice has size `0` and its
capacity `2`. -/
theorem C17_Clear_witness :
    ((mkVec 0 [(1 : Int), 2] 0).Clear intOps ⟨(), 1, []⟩).2.1.Size = 0 ∧
      ((mkVec 0 [(1 : Int), 2] 0).Clear intOps ⟨(), 1, []⟩).2.1.Capacity = 2 ∧
      (Vector.Clear intOps ((mkVec 0 [(1 : Int), 2] 0).Clear intOps ⟨(), 1, []⟩).2.1
        ((mkVec 0 [(1 : Int), 2] 0).Clear intOps ⟨(), 1, []⟩).2.2).2.1
        = ((mkVec 0 [(1 : Int), 2] 0).Clear intOps ⟨(), 1, []⟩).2.1 :=
  have h := C17_Clear intOps (mkVec 0 [(1 : Int), 2] 0) (mkVec_WF 0 [1, 2] 0 (by decide))
    ⟨(), 1, []⟩
  ⟨h.2.1, h.2.2.1, congrArg (fun r => r.2.1) (h.2.2.2.2.2 _)⟩

/-! ## The order of a rollback (claim C20) -/

theorem numConstruct_append (a b : List Event) :
    numConstruct (a ++ b) = numConstruct a + numConstruct b := by
  simp [numConstruct]

theorem numConstruct_constructEvents (id lo n : Nat) :
    numConstruct (constructEvents id lo n) = n := by
  simp only [numConstruct, constructEvents, List.filter_map]
  rw [List.filter_eq_self.mpr (by intro a _; rfl)]
  simp

theorem numConstruct_destroyEvents (id lo n : Nat) :
    numConstruct (destroyEvents id lo n) = 0 := by
  simp only [numConstruct, destroyEvents, List.filter_map]
  rw [List.filter_eq_nil_iff.mpr (by intro a _; simp [Function.comp])]
  simp

theorem numConstruct_release (p : Ptr T) (w : World W) :
    numConstruct (release p w).log = numConstruct w.log := by
  cases p with
  | none => rfl
  | some b => simp [release, numConstruct]

/-- What one append that returns normally does to size, capacity, the
allocator and the number of constructions. -/
theorem PushBack_ok_step (ops : ElemOps T W E) {v : Vector T} (hwf : v.WF) (x : T)
    (w : World W) (hok : (v.PushBack ops x w).1 = Res.ok ()) :
    (v.PushBack ops x w).2.1.WF ∧ (v.PushBack ops x w).2.1.size_ = v.size_ + 1 ∧
      (v.size_ = v.cap_ →
        (v.PushBack ops x w).2.1.cap_ = (if v.cap_ ≠ 0 then v.cap_ * 2 else 1) ∧
        (v.PushBack ops x w).2.2.next = w.next + 1 ∧
        numConstruct (v.PushBack ops x w).2.2.log = numConstruct w.log + v.size_ + 1) ∧
      (v.size_ ≠ v.cap_ →
        (v.PushBack ops x w).2.1.cap_ = v.cap_ ∧
        (v.PushBack ops x w).2.2.next = w.next ∧
        numConstruct (v.PushBack ops x w).2.2.log = numConstruct w.log + 1) := by
  have hsc := hwf.1
  have hlen := WF_size hwf
  by_cases h : v.size_ = v.cap_
  · rcases hc : copySeq ops v.toList w.env with ⟨ys, r, env⟩
    cases r with
    | some e =>
      rw [PushBack_grow_throw_copy ops hwf x h w hc] at hok
      exact absurd hok (by simp)
    | none =>
      rcases hx : ops.copy x env with ⟨rx, env2⟩
      cases rx with
      | error e =>
        rw [PushBack_grow_throw_new ops hwf x h w hc hx] at hok
        exact absurd hok (by simp)
      | ok y =>
        have hys := copySeq_none_len_size ops hwf hc
        rw [PushBack_grow_ok ops hwf x h w hc hx]
        refine ⟨mkVec_WF _ _ _ (by simp), by simp [mkVec, hys], fun _ => ⟨?_, ?_, ?_⟩,
          fun h2 => absurd h h2⟩
        · simp only [mkVec, List.length_append, List.length_singleton, hys]
          split <;> omega
        · cases hd : v.data_ <;> simp [release]
        · rw [numConstruct_release]
          simp only [numConstruct_append, numConstruct_constructEvents,
            numConstruct_destroyEvents]
          simp [numConstruct]
          omega
  · rw [PushBack_inplace ops hwf x h w] at hok ⊢
    rcases hx : ops.copy x w.env with ⟨rx, env2⟩
    rw [hx] at hok
    cases rx with
    | error e => exact absurd hok (by simp)
    | ok y =>
      refine ⟨mkVec_WF _ _ _ (by simp), by simp [mkVec, hlen], fun h2 => absurd h2 h,
        fun _ => ⟨?_, rfl, ?_⟩⟩
      · simp only [mkVec, List.length_append, List.length_singleton, hlen]
        omega
      · simp [numConstruct_append, numConstruct]

theorem Amortized_step (ops : ElemOps T W E) {v : Vector T} (hwf : v.WF) (x : T)
    (w : World W) (base : Nat) (hok : (v.PushBack ops x w).1 = Res.ok ())
    (ha : Amortized base v w) :
    Amortized base (v.PushBack ops x w).2.1 (v.PushBack ops x w).2.2 ∧
      ((v.PushBack ops x w).2.2.next ≠ w.next →
        v.size_ = v.cap_ ∧ (v.size_ = 0 ∨ ∃ k, v.size_ = 2 ^ k)) := by
  obtain ⟨_, hs, hg, hi⟩ := PushBack_ok_step ops hwf x w hok
  have hsc := hwf.1
  by_cases h : v.size_ = v.cap_
  · obtain ⟨hcap, hnext, hnum⟩ := hg h
    rcases ha with ⟨h0, hc0, hb⟩ | ⟨hpos, ⟨k, hk⟩, hlt, hb⟩
    · refine ⟨Or.inr ⟨by omega, ⟨0, ?_⟩, ?_, ?_⟩, fun _ => ⟨h, Or.inl h0⟩⟩
      · rw [hcap, hc0]; rfl
      · rw [hcap, hc0, hs]; simp only [ne_eq, not_true_eq_false, if_false]; omega
      · rw [hnum, hcap, hc0, hs, hb, h0]; simp
    · have hne : v.cap_ ≠ 0 := by omega
      rw [if_pos hne] at hcap
      refine ⟨Or.inr ⟨by omega, ⟨k + 1, ?_⟩, by omega, by omega⟩,
        fun _ => ⟨h, Or.inr ⟨k, by omega⟩⟩⟩
      rw [hcap, hk, Nat.pow_succ]
  · obtain ⟨hcap, hnext, hnum⟩ := hi h
    refine ⟨?_, fun hne => absurd hnext hne⟩
    rcases ha with ⟨h0, hc0, hb⟩ | ⟨hpos, ⟨k, hk⟩, hlt, hb⟩
    · exact absurd (by omega) h
    · exact Or.inr ⟨by omega, ⟨k, by rw [hcap, hk]⟩, by omega, by omega⟩

theorem Amortized_run (ops : ElemOps T W E) (base : Nat) (xs : List T) :
    ∀ (v : Vector T) (w : World W), v.WF → Amortized base v w →
      (pushEach ops xs v w).1 = Res.ok () →
      Amortized base (pushEach ops xs v w).2.1 (pushEach ops xs v w).2.2 ∧
        (pushEach ops xs v w).2.1.size_ = v.size_ + xs.length ∧
        ∀ p, p ∈ growPoints ops xs v w → p.1 = p.2 ∧ (p.1 = 0 ∨ ∃ k, p.1 = 2 ^ k) := by
  induction xs with
  | nil =>
    intro v w _ ha _
    exact ⟨ha, rfl, fun p hp => absurd hp (by simp [growPoints])⟩
  | cons x xs ih =>
    intro v w hwf ha hok
    rcases hp : v.PushBack ops x w with ⟨r, v', w'⟩
    simp only [pushEach, hp] at hok ⊢
    cases r with
    | throw e => exact absurd hok (by simp)
    | ub => exact absurd hok (by simp)
    | ok u =>
      have hok1 : (v.PushBack ops x w).1 = Res.ok () := by rw [hp]
      obtain ⟨hwf', hs, _, _⟩ := PushBack_ok_step ops hwf x w hok1
      obtain ⟨ha', hgrow⟩ := Amortized_step ops hwf x w base hok1 ha
      rw [hp] at hwf' hs ha' hgrow
      simp only at hwf' hs ha' hgrow hok
      obtain ⟨i1, i2, i3⟩ := ih v' w' hwf' ha' hok
      refine ⟨i1, by rw [i2, hs, List.length_cons]; omega, ?_⟩
      intro p hp'
      simp only [growPoints, hp, List.mem_append] at hp'
      rcases hp' with hp' | hp'
      · by_cases hn : w'.next = w.next
        · simp [hn] at hp'
        · simp only [if_neg hn, List.mem_singleton] at hp'
          subst hp'
          exact hgrow hn
      · exact i3 p hp'

/-- Claim C18. For every run of `n >= 1` appends, all returning normally, that
starts on the empty vector: an append allocates a new block only when
`size == capacity` before it, and that size is `0` or a power of two; the
constructions the run logs are the `n` of the appended values and `reloc`
copies of existing elements into new blocks, where `reloc` is the final
capacity minus one and `reloc < 2 * n`. -/
theorem C18_appends_amortized (ops : ElemOps T W E) (xs : List T) (w : World W)
    (hn : 1 ≤ xs.length) (hok : (pushEach ops xs Vector.empty w).1 = Res.ok ()) :
    (∀ p, p ∈ growPoints ops xs Vector.empty w → p.1 = p.2 ∧ (p.1 = 0 ∨ ∃ k, p.1 = 2 ^ k)) ∧
      ∃ reloc,
        numConstruct (pushEach ops xs Vector.empty w).2.2.log
          = numConstruct w.log + xs.length + reloc ∧
        reloc + 1 = (pushEach ops xs Vector.empty w).2.1.cap_ ∧
        reloc < 2 * xs.length := by
  obtain ⟨ha, hs, hg⟩ := Amortized_run ops (numConstruct w.log) xs Vector.empty w empty_WF
    (Or.inl ⟨rfl, rfl, rfl⟩) hok
  refine ⟨hg, ?_⟩
  have hs' : (pushEach ops xs Vector.empty w).2.1.size_ = xs.length := by
    rw [hs]; simp [Vector.empty]
  rcases ha with ⟨h0, _, _⟩ | ⟨hpos, ⟨k, hk⟩, hlt, hb⟩
  · omega
  · have hcpos : 0 < (pushEach ops xs Vector.empty w).2.1.cap_ := by
      rw [hk]; exact Nat.pos_pow_of_pos k (by decide)
    refine ⟨(pushEach ops xs Vector.empty w).2.1.cap_ - 1, ?_, by omega, by omega⟩
    rw [hs'] at hb
    omega

/-- Claim C18 at five appends of `int`: blocks are allocated at sizes
`0, 1, 2, 4`, and the `12` constructions are the `5` appended values and
`7 < 10` relocation copies. -/
theorem C18_appends_amortized_witness :
    growPoints intOps [1, 2, 3, 4, 5] (Vector.empty : Vector Int) ⟨(), 0, []⟩
        = [(0, 0), (1, 1), (2, 2), (4, 4)] ∧
      numConstruct (pushEach intOps [1, 2, 3, 4, 5] (Vector.empty : Vector Int)
        ⟨(), 0, []⟩).2.2.log = 5 + 7 ∧
      ∃ reloc,
        numConstruct (pushEach intOps [1, 2, 3, 4, 5] (Vector.empty : Vector Int)
          ⟨(), 0, []⟩).2.2.log = numConstruct [] + 5 + reloc ∧
        reloc + 1 = (pushEach intOps [1, 2, 3, 4, 5] (Vector.empty : Vector Int)
          ⟨(), 0, []⟩).2.1.cap_ ∧
        reloc < 2 * 5 :=
  ⟨by decide, by decide,
    (C18_appends_amortized intOps [1, 2, 3, 4, 5] ⟨(), 0, []⟩ (by decide) (by decide)).2⟩

/-! ## The class invariant (claim C19) -/

theorem allocate64_eq (sz n : Nat) (hsz : 1 ≤ sz) (hb : n * sz < 2 ^ 64) (w : World W) :
    (allocate64 sz n w : Ptr T × World W) = allocate n w := by
  have h : n * sz % 2 ^ 64 / sz = n := by
    rw [Nat.mod_eq_of_lt hb, Nat.mul_div_cancel n (by omega)]
  simp only [allocate64, allocate, h]

/-- `Reserve` on the machine is `Reserve` over `ℕ` when it has nothing to do or
when the byte count of the new capacity fits into `size_t`. -/
theorem Reserve64_eq (ops : ElemOps T W E) (sz : Nat) (hsz : 1 ≤ sz) (v : Vector T) (n : Nat)
    (w : World W) (hb : n ≤ v.cap_ ∨ max n (2 * v.cap_) * sz < 2 ^ 64) :
    v.Reserve64 ops sz n w = v.Reserve ops n w := by
  by_cases h : n ≤ v.cap_
  · simp only [Vector.Reserve64, Vector.Reserve, if_pos h]
  · have hb' : max n (2 * v.cap_) * sz < 2 ^ 64 := by
      rcases hb with hb | hb
      · exact absurd hb h
      · exact hb
    have hle : max n (2 * v.cap_) ≤ max n (2 * v.cap_) * sz :=
      Nat.le_mul_of_pos_right _ hsz
    have h2 : v.cap_ * 2 % 2 ^ 64 = v.cap_ * 2 := Nat.mod_eq_of_lt (by omega)
    have hb2 : max n (v.cap_ * 2) * sz < 2 ^ 64 := by rwa [Nat.mul_comm v.cap_ 2]
    simp only [Vector.Reserve64, Vector.Reserve, if_neg h, h2,
      allocate64_eq sz _ hsz hb2 w]

theorem PushBack64_inplace (ops : ElemOps T W E) (sz : Nat) (v : Vector T) (x : T)
    (w : World W) (h : v.size_ ≠ v.cap_) :
    v.PushBack64 ops sz x w = v.PushBack ops x w := by
  simp only [Vector.PushBack64, Vector.PushBack, if_neg h]

/-- Appends into spare slots are the same on the machine and over `ℕ`. -/
theorem pushLoop64_eq (ops : ElemOps T W E) (sz : Nat) (val : T) (id : Nat) (k : Nat) :
    ∀ (j : Nat) (xs : List T) (extra : Nat) (w : World W), k ≤ extra →
      forLoop (fun _ (s : Vector T × World W) => Vector.PushBack64 ops sz s.1 val s.2) k j
          (mkVec id xs extra, w) =
        forLoop (fun _ (s : Vector T × World W) => Vector.PushBack ops s.1 val s.2) k j
          (mkVec id xs extra, w) := by
  induction k with
  | zero => intro j xs extra w _; rfl
  | succ k ih =>
    intro j xs extra w hle
    have hwf : (mkVec id xs extra).WF := mkVec_WF id xs extra (by omega)
    have hne : (mkVec id xs extra).size_ ≠ (mkVec id xs extra).cap_ := by
      simp only [mkVec]; omega
    simp only [forLoop, PushBack64_inplace ops sz _ val w hne,
      PushBack_inplace ops hwf val hne w, toList_mkVec, blockId_mkVec]
    rcases ops.copy val w.env with ⟨r, env⟩
    cases r with
    | error e => rfl
    | ok y =>
      have hcap : (mkVec id xs extra).cap_ - ((mkVec id xs extra).size_ + 1) = extra - 1 := by
        simp only [mkVec]; omega
      simp only [hcap]
      exact ih (j + 1) (xs ++ [y]) (extra - 1) _ (by omega)

/-- The constructor `Vector(n, val)` on the machine is the constructor over `ℕ`
when the byte count of `n` objects fits into `size_t`. -/
theorem create64_eq (ops : ElemOps T W E) (sz : Nat) (hsz : 1 ≤ sz) (n : Nat) (val : T)
    (w : World W) (hb : n * sz < 2 ^ 64) :
    Vector.create64 ops sz n val w = Vector.create ops n val w := by
  have hr : (Vector.empty : Vector T).Reserve64 ops sz n w
      = (Vector.empty : Vector T).Reserve ops n w :=
    Reserve64_eq ops sz hsz Vector.empty n w (Or.inr (by
      simp only [Vector.empty, Nat.mul_zero, Nat.zero_le, max_eq_left]
      exact hb))
  simp only [Vector.create64, Vector.create, hr, pushRepeat64, pushRepeat, forRange]
  by_cases hn : n = 0
  · subst hn
    rfl
  · rw [Reserve_empty_pos ops n (by omega) w]
    simp only [Nat.sub_zero, pushLoop64_eq ops sz val w.next n 0 [] n _ (Nat.le_refl _)]

theorem forLoop_add_ok {σ : Type} (body : Nat → σ → Res E Unit × σ) (b : Nat) (a : Nat) :
    ∀ (j : Nat) (s : σ), (forLoop body a j s).1 = Res.ok () →
      forLoop body (a + b) j s = forLoop body b (j + a) (forLoop body a j s).2.2 := by
  induction a with
  | zero => intro j s _; simp [forLoop]
  | succ a ih =>
    intro j s h
    rw [show a + 1 + b = (a + b) + 1 by omega]
    simp only [forLoop] at h ⊢
    rcases hb : body j s with ⟨r, s'⟩
    rw [hb] at h
    cases r with
    | ok u =>
      simp only at h ⊢
      rw [ih (j + 1) s' h, show j + 1 + a = j + (a + 1) by omega]
    | throw e => exact absurd h (by simp)
    | ub => exact absurd h (by simp)

theorem forLoop_add_fail {σ : Type} (body : Nat → σ → Res E Unit × σ) (b : Nat) (a : Nat) :
    ∀ (j : Nat) (s : σ), (forLoop body a j s).1 ≠ Res.ok () →
      (forLoop body (a + b) j s).1 ≠ Res.ok () := by
  induction a with
  | zero => intro j s h; exact absurd rfl h
  | succ a ih =>
    intro j s h
    rw [show a + 1 + b = (a + b) + 1 by omega]
    simp only [forLoop] at h ⊢
    rcases hb : body j s with ⟨r, s'⟩
    rw [hb] at h
    cases r with
    | ok u => exact ih (j + 1) s' h
    | throw e => simp
    | ub => simp

/-- Copying the elements into a block with room for fewer objects than there
are elements does not return normally: a copy throws, or a placement `new`
lands outside of the block. -/
theorem copyRange_short (ops : ElemOps T W E) {v : Vector T} (hwf : v.WF) (id m : Nat)
    (hm : m < v.size_) (w : World W) :
    (copyRange ops v.data_ 0 v.size_ (some ⟨id, List.replicate m none⟩) w).1 ≠ Res.ok () := by
  have hlen := WF_size hwf
  have hml : m < v.toList.length := by omega
  have htl : (v.toList.take m).length = m := by
    rw [List.length_take]; omega
  obtain ⟨k, hk⟩ : ∃ k, v.size_ = m + (k + 1) := ⟨v.size_ - m - 1, by omega⟩
  unfold copyRange forRange
  rw [Nat.sub_zero, hk]
  have h1 := forLoop_construct ops id []
    (fun j (s : Ptr T × World W) =>
      match readSlot v.data_ j with
      | none => (Res.ub, s)
      | some x => construct ops s.1 j x s.2)
    (v.toList.take m) 0 [] w rfl (by
      intro i h s
      have hi : i < v.toList.length := by rw [htl] at h; omega
      simp only [Nat.zero_add, readSlot_of_WF hwf i hi, List.getElem_take])
  simp only [htl, List.nil_append, List.append_nil, Nat.zero_add] at h1
  rcases hc : copySeq ops (v.toList.take m) w.env with ⟨ys, r, env⟩
  rw [hc] at h1
  simp only at h1
  cases r with
  | some e =>
    apply forLoop_add_fail
    rw [h1]
    simp [status]
  | none =>
    have hys : ys.length = m := by
      have := copySeq_none_length ops (v.toList.take m) w.env (by rw [hc])
      rw [hc, htl] at this
      exact this
    rw [forLoop_add_ok _ _ _ _ _ (by rw [h1]; rfl), h1]
    simp only [forLoop, Nat.zero_add, readSlot_of_WF hwf m hml, hys, Nat.sub_self,
      List.replicate_zero, List.append_nil, construct]
    rw [List.getElem?_eq_none (by simp [hys])]
    simp

theorem rollback_ne_ok (ops : ElemOps T W E) (v : Vector T) (nd : Ptr T) (j : Nat) (e : E)
    (w : World W) : (rollback ops v nd j e w).1 ≠ Res.ok () := by
  unfold rollback
  rcases destroyRange ops 0 j nd w with ⟨r, j', nd', w'⟩
  cases r <;> simp

/-- The machine `Reserve` that grows and does not wrap `cap_ * 2`: if it
returns normally, the result has the old size, capacity `max(n, 2*c)`, and the
copies of the elements in its first slots. -/
theorem Reserve64_ok_form (ops : ElemOps T W E) (hex : ops.CopyExact) (sz : Nat)
    {v : Vector T} (hwf : v.WF) (n : Nat) (w : World W) (h : v.cap_ < n)
    (h2 : 2 * v.cap_ < 2 ^ 64) (hok : (v.Reserve64 ops sz n w).1 = Res.ok ()) :
    (v.Reserve64 ops sz n w).2.1.size_ = v.size_ ∧
      (v.Reserve64 ops sz n w).2.1.cap_ = max n (2 * v.cap_) ∧
      (v.Reserve64 ops sz n w).2.1.toList = v.toList := by
  have hmod : v.cap_ * 2 % 2 ^ 64 = v.cap_ * 2 := Nat.mod_eq_of_lt (by omega)
  simp only [Vector.Reserve64, if_neg (Nat.not_le.mpr h), hmod, allocate64] at hok ⊢
  generalize max n (v.cap_ * 2) * sz % 2 ^ 64 / sz = m at hok ⊢
  by_cases hm : v.size_ ≤ m
  · rcases hc : copySeq ops v.toList w.env with ⟨ys, r, env⟩
    rw [copyRange_spec ops hwf w.next m hm ⟨w.env, w.next + 1, _⟩ hc] at hok ⊢
    cases r with
    | some e =>
      simp only [status] at hok
      exact absurd hok (rollback_ne_ok ops _ _ _ _ _)
    | none =>
      have hys : ys = v.toList := by
        have := copySeq_exact_none ops hex v.toList w.env (by rw [hc])
        rw [hc] at this
        exact this
      have hlen := copySeq_none_len_size ops hwf hc
      simp only [status, adopt_spec ops hwf]
      refine ⟨trivial, by rw [Nat.mul_comm], ?_⟩
      conv_lhs => simp only [Vector.toList]
      rw [← hlen, List.take_left' (by simp), reduceOption_map_some, hys]
  · have hs := copyRange_short ops hwf w.next m (Nat.not_le.mp hm)
      ⟨w.env, w.next + 1, w.log ++ [Event.alloc w.next m]⟩
    rcases hcr : copyRange ops v.data_ 0 v.size_ (some ⟨w.next, List.replicate m none⟩)
      ⟨w.env, w.next + 1, w.log ++ [Event.alloc w.next m]⟩ with ⟨r, j, nd, w1⟩
    rw [hcr] at hs hok
    cases r with
    | ok u => exact absurd rfl hs
    | throw e => exact absurd hok (rollback_ne_ok ops _ _ _ _ _)
    | ub => exact absurd hok (by simp)

/-- Claim C5, where `cap_ * 2` does not wrap. On the machine, a call
`Reserve(n)` that has nothing to do (`n <= c`) or is made at a capacity with
`2*c < 2^64`, and that returns normally on a well-formed vector of an element
type with exact copies, leaves the size and the sequence of element values as
they were; the capacity `c` stays `c` when `n <= c`, becomes exactly `n` when
`n > 2*c`, and becomes `max(n, 2*c)` when `c < n <= 2*c`. When moreover the
byte count of the new capacity fits (`max(n, 2*c) * sizeof(T) < 2^64`), the
result is well-formed. -/
theorem C5_Reserve_floor (ops : ElemOps T W E) (hex : ops.CopyExact) (sz : Nat)
    (v : Vector T) (hwf : v.WF) (n : Nat) (w : World W)
    (hb : n ≤ v.Capacity ∨ 2 * v.Capacity < 2 ^ 64)
    (hok : (v.Reserve64 ops sz n w).1 = Res.ok ()) :
    (v.Reserve64 ops sz n w).2.1.Size = v.Size ∧
      (v.Reserve64 ops sz n w).2.1.toList = v.toList ∧
      (n ≤ v.Capacity → (v.Reserve64 ops sz n w).2.1.Capacity = v.Capacity) ∧
      (2 * v.Capacity < n → (v.Reserve64 ops sz n w).2.1.Capacity = n) ∧
      (v.Capacity < n → n ≤ 2 * v.Capacity →
        (v.Reserve64 ops sz n w).2.1.Capacity = max n (2 * v.Capacity)) ∧
      (n ≤ v.Capacity ∨ (1 ≤ sz ∧ max n (2 * v.Capacity) * sz < 2 ^ 64) →
        (v.Reserve64 ops sz n w).2.1.WF) := by
  simp only [Vector.Size, Vector.Capacity] at hb ⊢
  have hwf' : n ≤ v.cap_ ∨ (1 ≤ sz ∧ max n (2 * v.cap_) * sz < 2 ^ 64) →
      (v.Reserve64 ops sz n w).2.1.WF := by
    intro hfit
    have hb' : n ≤ v.cap_ ∨ max n (2 * v.cap_) * sz < 2 ^ 64 := hfit.imp id And.right
    by_cases h : n ≤ v.cap_
    · simp only [Vector.Reserve64, if_pos h]
      exact hwf
    · have hsz : 1 ≤ sz := by
        rcases hfit with hfit | hfit
        · exact absurd hfit h
        · exact hfit.1
      rw [Reserve64_eq ops sz hsz v n w hb'] at hok ⊢
      exact (Reserve_floor ops hex v hwf n w hok).1
  by_cases h : n ≤ v.cap_
  · rw [show v.Reserve64 ops sz n w = (Res.ok (), v, w) by
      simp only [Vector.Reserve64, if_pos h]] at hwf' ⊢
    exact ⟨rfl, rfl, fun _ => rfl, fun h2 => by omega, fun h2 => by omega, hwf'⟩
  · have h2 : 2 * v.cap_ < 2 ^ 64 := by
      rcases hb with hb | hb
      · exact absurd hb h
      · exact hb
    obtain ⟨h1, h3, h4⟩ := Reserve64_ok_form ops hex sz hwf n w (Nat.not_le.mp h) h2 hok
    refine ⟨h1, h4, fun h5 => absurd h5 h, fun h5 => ?_, fun _ _ => h3, hwf'⟩
    rw [h3]
    omega

set_option maxRecDepth 1000000 in
/-- Claim C5 at the test "Reserve", with `sizeof(int) = 4`: `Reserve(228)` on
`Vector<int>{1, 2, 3}` (capacity `3`) returns normally, keeps size `3` and the
elements, and gives capacity `228`; `100` appends keep it at `228`, and
`Reserve(10)` keeps it at `228`. -/
theorem C5_Reserve_floor_witness :
    testReserve1.2.1.Capacity = 3 ∧
      (testReserve2.2.1.Size = 3 ∧ testReserve2.2.1.toList = [1, 2, 3] ∧
        testReserve2.2.1.Capacity = 228) ∧
      (testReserve3.1 = Res.ok () ∧ testReserve3.2.1.Size = 103 ∧
        testReserve3.2.1.Capacity = 228) ∧
      (testReserve4.1 = Res.ok () ∧ testReserve4.2.1.Capacity = 228) :=
  have hv : testReserve1.2.1 = mkVec 0 [1, 2, 3] 0 := by decide
  have hwf : testReserve1.2.1.WF := hv ▸ mkVec_WF 0 [1, 2, 3] 0 (by decide)
  have h := C5_Reserve_floor intOps (CopyExact_of_CopyOk intOps_CopyOk) 4
    testReserve1.2.1 hwf 228 testReserve1.2.2 (Or.inr (by decide)) (by decide)
  ⟨by decide, ⟨h.1.trans (by decide), h.2.1.trans (by decide), h.2.2.2.1 (by decide)⟩,
    ⟨by decide, by decide, by decide⟩, ⟨by decide, by decide⟩⟩

/-- Claim C5 as stated, for every `n`, fails on the machine. On an empty
`Vector<int>`, `Reserve(2^63)` returns normally with capacity `c = 2^63` (over
a block of `0` bytes, size `0`); then `Reserve(n)` with `n = 2^63 + 1`, where
`c < n <= 2*c`, returns normally with capacity `2^63 + 1`, not `max(n, 2*c)`:
`cap_ * 2` is `0` modulo `2^64`. -/
theorem C5_wrap_counterexample :
    wrapReserve1.1 = Res.ok () ∧ wrapReserve1.2.1.Capacity = 2 ^ 63 ∧
      wrapReserve1.2.1.Size = 0 ∧
      wrapReserve2.1 = Res.ok () ∧
      (wrapReserve1.2.1.Capacity < 2 ^ 63 + 1 ∧ 2 ^ 63 + 1 ≤ 2 * wrapReserve1.2.1.Capacity) ∧
      wrapReserve2.2.1.Capacity = 2 ^ 63 + 1 ∧
      wrapReserve2.2.1.Capacity ≠ max (2 ^ 63 + 1) (2 * wrapReserve1.2.1.Capacity) := by
  decide

/-- Claim C10, within the range of `size_t`. On the machine, for
`sizeof(T) >= 1` and an element type whose copies never throw and are exact,
`Vector(n, val)` with `n * sizeof(T) < 2^64` returns normally with a
well-formed vector of size `n` whose elements at every index `i < n` are `val`
and whose capacity is at least `n`; the default constructor gives size `0`,
capacity `0` and no storage. -/
theorem C10_create (ops : ElemOps T W E) (hok : ops.CopyOk) (sz : Nat) (hsz : 1 ≤ sz)
    (n : Nat) (val : T) (w : World W) (hb : n * sz < 2 ^ 64) :
    (∃ v w', Vector.create64 ops sz n val w = (Res.ok (), v, w') ∧ v.WF ∧ v.Size = n ∧
      (∀ i, i < n → v.index i = some val) ∧ v.toList = List.replicate n val ∧
      n ≤ v.Capacity) ∧
      (Vector.empty : Vector T).Size = 0 ∧ (Vector.empty : Vector T).Capacity = 0 ∧
      (Vector.empty : Vector T).data_ = none := by
  rw [create64_eq ops sz hsz n val w hb]
  exact create_of_CopyOk ops hok n val w

/-- Claim C10 at the test "Constructors", with `sizeof(size_t) = 8`:
`Vector<size_t> b(5, 7)` holds five times `7`, and its capacity is `5`. -/
theorem C10_create_witness :
    ∃ v w', Vector.create64 intOps 8 5 7 ⟨(), 0, []⟩ = (Res.ok (), v, w') ∧ v.Size = 5 ∧
      v.toList = [7, 7, 7, 7, 7] ∧ 5 ≤ v.Capacity ∧ v.Capacity = 5 :=
  match (C10_create intOps intOps_CopyOk 8 (by decide) 5 7 ⟨(), 0, []⟩ (by decide)).1 with
  | ⟨v, w', h1, _, h3, _, h5, h6⟩ =>
    ⟨v, w', h1, h3, h5, h6, by
      have hv : v = (Vector.create64 intOps 8 5 7 ⟨(), 0, []⟩).2.1 := by rw [h1]
      rw [hv]
      decide⟩

/-- Claim C10 as stated, for every `n`, fails on the machine. For `int`, whose
copies never throw, `Vector<int>(2^62, 7)` asks for `2^62 * 4` bytes, which is
`0` modulo `2^64`: `Reserve` returns with capacity `2^62` over a block without
room, and the first `PushBack` constructs an element outside of the block. The
constructor does not return a vector of `2^62` elements. -/
theorem C10_wrap_counterexample :
    (Vector.Reserve64 intOps 4 (Vector.empty : Vector Int) (2 ^ 62) ⟨(), 0, []⟩)
        = (Res.ok (), ⟨0, 2 ^ 62, some ⟨0, []⟩⟩, ⟨(), 1, [Event.alloc 0 0]⟩) ∧
      (Vector.create64 intOps 4 (2 ^ 62) 7 ⟨(), 0, []⟩).1 = Res.ub ∧
      ¬ ∃ v w', Vector.create64 intOps 4 (2 ^ 62) 7 ⟨(), 0, []⟩ = (Res.ok (), v, w') ∧
        v.Size = 2 ^ 62 :=
  have hub : (Vector.create64 intOps 4 (2 ^ 62) 7 ⟨(), 0, []⟩).1 = Res.ub := by decide
  ⟨by decide, hub, fun ⟨_, _, h, _⟩ => by
    rw [h] at hub
    exact absurd hub (by simp)⟩

/-! ## `Assign` on the machine (claim C16); equality of elements that differ
from themselves -/

theorem Assign64_eq (ops : ElemOps T W E) (sz : Nat) (hsz : 1 ≤ sz) (v : Vector T) (n : Nat)
    (val : T) (w : World W) (hb : n * sz < 2 ^ 64) :
    v.Assign64 ops sz n val w = v.Assign ops n val w := by
  simp only [Vector.Assign64, Vector.Assign, create64_eq ops sz hsz n val w hb]

theorem nanOps_CopyOk : nanOps.CopyOk := fun _ _ => rfl

/-- Claim C16, within the range of `size_t` and for a value that is not `!=`
itself. On the machine, for `sizeof(T) >= 1` and `n * sizeof(T) < 2^64`,
`Assign(n, val)` on a well-formed vector throws exactly when one of the `n`
copies of `val` that `Vector(n, val)` makes throws, with that very exception,
and then the vector is exactly what it was; otherwise it returns normally and
the vector is the very vector `Vector(n, val)` built: well-formed, and for exact
copies of size `n` with every element `val`, so that it compares equal to any
`Vector(n, val)` when `val` is not `!=` itself. `Assign(0, val)` always returns
normally and leaves the empty vector. -/
theorem C16_Assign (ops : ElemOps T W E) (sz : Nat) (hsz : 1 ≤ sz) (v : Vector T) (hv : v.WF)
    (n : Nat) (val : T) (w : World W) (hb : n * sz < 2 ^ 64) :
    (v.Assign64 ops sz n val w).1 = status (copySeq ops (List.replicate n val) w.env).2.1 ∧
      (∀ e, (v.Assign64 ops sz n val w).1 = Res.throw e → (v.Assign64 ops sz n val w).2.1 = v) ∧
      ((v.Assign64 ops sz n val w).1 = Res.ok () →
        (v.Assign64 ops sz n val w).2.1 = (Vector.create64 ops sz n val w).2.1 ∧
        (v.Assign64 ops sz n val w).2.1.WF ∧
        (ops.CopyExact →
          (v.Assign64 ops sz n val w).2.1.Size = n ∧
          (v.Assign64 ops sz n val w).2.1.toList = List.replicate n val ∧
          (ops.ne val val = false →
            ∀ w2, (Vector.create64 ops sz n val w2).1 = Res.ok () →
              (v.Assign64 ops sz n val w).2.1.opEq ops (Vector.create64 ops sz n val w2).2.1
                = some true))) ∧
      (n = 0 → (v.Assign64 ops sz n val w).1 = Res.ok () ∧
        (v.Assign64 ops sz n val w).2.1 = Vector.empty ∧
        (v.Assign64 ops sz n val w).2.1.Empty = true) := by
  rw [Assign64_eq ops sz hsz v n val w hb]
  simp only [fun w' => create64_eq ops sz hsz n val w' hb]
  exact Assign_of_WF ops v hv n val w

/-- Claim C16 at the test "Assign", with `sizeof(int) = 4`: on an empty vector
`Assign(5, 228)` gives a vector equal to `Vector<int>(5, 228)`, then
`Assign(0, 3)` empties it; and a vector of `EvilInt` keeps its element when the
second copy throws. -/
theorem C16_Assign_witness :
    ((Vector.empty : Vector Int).Assign64 intOps 4 5 228 ⟨(), 0, []⟩).2.1.opEq intOps
        (Vector.create64 intOps 4 5 228 ⟨(), 1, []⟩).2.1 = some true ∧
      ((mkVec 0 [(228 : Int), 228, 228, 228, 228] 0).Assign64 intOps 4 0 3 ⟨(), 1, []⟩).2.1.Empty
        = true ∧
      ((mkVec 1 [(9 : Int)] 0).Assign64 evilInt 4 3 7 ⟨199, 2, []⟩).1 = Res.throw 1945 ∧
      ((mkVec 1 [(9 : Int)] 0).Assign64 evilInt 4 3 7 ⟨199, 2, []⟩).2.1 = mkVec 1 [9] 0 :=
  have h1 := C16_Assign intOps 4 (by decide) (Vector.empty : Vector Int) empty_WF 5 228
    ⟨(), 0, []⟩ (by decide)
  have h2 := C16_Assign intOps 4 (by decide) (mkVec 0 [(228 : Int), 228, 228, 228, 228] 0)
    (mkVec_WF 0 _ 0 (by decide)) 0 3 ⟨(), 1, []⟩ (by decide)
  have h3 := C16_Assign evilInt 4 (by decide) (mkVec 1 [(9 : Int)] 0)
    (mkVec_WF 1 [9] 0 (by decide)) 3 7 ⟨199, 2, []⟩ (by decide)
  have t3 : ((mkVec 1 [(9 : Int)] 0).Assign64 evilInt 4 3 7 ⟨199, 2, []⟩).1 = Res.throw 1945 :=
    h3.1.trans (by decide)
  ⟨((h1.2.2.1 (h1.1.trans (by decide))).2.2 (CopyExact_of_CopyOk intOps_CopyOk)).2.2
      (by decide) ⟨(), 1, []⟩ (by decide),
    (h2.2.2.2 rfl).2.2, t3, h3.2.1 1945 t3⟩

/-- Claim C16 as stated fails twice. For an element type with a NaN, whose
copies never throw and are exact, `Assign(2, NaN)` on an empty vector returns
normally with size `2` and both elements NaN, `Vector(2, NaN)` returns normally,
and `==` between the two is `false`. And on the machine, with
`sizeof(int) = 4`, `Assign(2^62, 7)` on an empty `Vector<int>` does not return
normally: the block has `0` bytes, and the first `PushBack` writes outside of
it. -/
theorem C16_Assign_counterexample :
    nanOps.CopyOk ∧
      (((Vector.empty : Vector (Option Int)).Assign64 nanOps 8 2 none ⟨(), 0, []⟩).1 = Res.ok () ∧
        ((Vector.empty : Vector (Option Int)).Assign64 nanOps 8 2 none ⟨(), 0, []⟩).2.1.Size = 2 ∧
        ((Vector.empty : Vector (Option Int)).Assign64 nanOps 8 2 none ⟨(), 0, []⟩).2.1.toList
          = [none, none] ∧
        (Vector.create64 nanOps 8 2 none ⟨(), 1, []⟩).1 = Res.ok () ∧
        ((Vector.empty : Vector (Option Int)).Assign64 nanOps 8 2 none ⟨(), 0, []⟩).2.1.opEq nanOps
          (Vector.create64 nanOps 8 2 none ⟨(), 1, []⟩).2.1 = some false) ∧
      (2 ^ 62 < 2 ^ 64 ∧
        ((Vector.empty : Vector Int).Assign64 intOps 4 (2 ^ 62) 7 ⟨(), 0, []⟩).1 = Res.ub) :=
  ⟨nanOps_CopyOk, by decide, by decide⟩

/-- Claim C15 as stated fails for an element type with a NaN, whose copies never
throw and are exact: with `a = {9}` and `b = {1, NaN}`, both well-formed, the
assignment `a = b` returns normally, leaves `b` as it was and gives `a` the
elements of `b`, and `a == b` is `false`. -/
theorem C15_nan_counterexample :
    nanOps.CopyOk ∧ (mkVec 1 [some (9 : Int)] 0).WF ∧ (mkVec 0 [some (1 : Int), none] 0).WF ∧
      (Vector.copyAssign nanOps (mkVec 1 [some 9] 0) (mkVec 0 [some 1, none] 0)
        ⟨(), 2, []⟩).1 = Res.ok () ∧
      (Vector.copyAssign nanOps (mkVec 1 [some 9] 0) (mkVec 0 [some 1, none] 0)
        ⟨(), 2, []⟩).2.1.2 = mkVec 0 [some 1, none] 0 ∧
      (Vector.copyAssign nanOps (mkVec 1 [some 9] 0) (mkVec 0 [some 1, none] 0)
        ⟨(), 2, []⟩).2.1.1.toList = [some 1, none] ∧
      (Vector.copyAssign nanOps (mkVec 1 [some 9] 0) (mkVec 0 [some 1, none] 0)
        ⟨(), 2, []⟩).2.1.1.opEq nanOps (mkVec 0 [some 1, none] 0) = some false :=
  ⟨nanOps_CopyOk, mkVec_WF 1 _ 0 (by decide), mkVec_WF 0 _ 0 (by decide),
    by decide, by decide, by decide, by decide⟩

end VectorH
